import Mathlib

/-!
Shallow embedding of the orchestration/dispatch layer of
`src/ipod/main.py` (functions `ipod_worker`, `ipod_worker_remote` and
`iterative_precovery_and_differential_correction`), together with models
of the external collaborators the code uses at its boundary
(the chunk iterators of `adam_core.propagator.utils`, the ray object
store, and the repository refinement routine `ipod`).

Quivr tables are embedded as Lean lists of rows; `qv.concatenate` is
list append; `qv.defragment` compacts physical storage only and is the
identity on the logical row sequence, so the embedded merge step is
plain append.  Machine floats appear in the source only as opaque
tolerance parameters that the orchestration never inspects, and in the
two arithmetic spots `np.ceil(len(orbit_ids) / max_processes)` and
`len(futures) >= max_processes * 1.5`, which are embedded exactly on
naturals as `(n + w - 1) / w` and `3 * w ≤ 2 * len`.
-/

namespace IpodSpec

/-- The result-batch quadruple returned by the refinement routine and
accumulated per chunk and per run: (FittedOrbits, FittedOrbitMembers,
PrecoveryCandidates, SearchSummary), each an independently typed row
collection. -/
structure Batches (α β γ δ : Type) where
  orbits : List α
  members : List β
  candidates : List γ
  summaries : List δ
  deriving DecidableEq

/-- The four `.empty()` collections. -/
def Batches.empty : Batches α β γ δ := ⟨[], [], [], []⟩

/-- One accumulation step: `qv.concatenate([acc, chunk])` on each of the
four collections, followed by the `fragmented()`/`qv.defragment`
compaction, which changes only the physical layout and is the identity
on the logical row sequence. -/
def Batches.merge (x y : Batches α β γ δ) : Batches α β γ δ :=
  ⟨x.orbits ++ y.orbits, x.members ++ y.members,
   x.candidates ++ y.candidates, x.summaries ++ y.summaries⟩

/-- The `OrbitDeterminationObservations` value built for one identifier:
the selected observation rows (sorted) paired with their observer
records (sorted). -/
structure ODObs (μ ω : Type) where
  rows : List μ
  observers : List ω
  deriving DecidableEq

/-- Lexicographic less-or-equal on the (time-days, time-nanos,
origin-code) sort key used by the two `sort_by` calls. -/
def tripleLe (a b : Nat × Nat × Nat) : Bool :=
  decide (a.1 < b.1) ||
    (decide (a.1 = b.1) &&
      (decide (a.2.1 < b.2.1) ||
        (decide (a.2.1 = b.2.1) && decide (a.2.2 ≤ b.2.2))))

/-- Insert into a sorted list (helper for the `sort_by` embedding). -/
def insertLe (le : τ → τ → Bool) (x : τ) : List τ → List τ
  | [] => [x]
  | y :: ys => if le x y then x :: y :: ys else y :: insertLe le x ys

/-- Stable insertion sort embedding the `sort_by` calls of the source. -/
def sortLe (le : τ → τ → Bool) : List τ → List τ
  | [] => []
  | x :: xs => insertLe le x (sortLe le xs)

/-- Everything a worker chunk computation reads: the (modelled, opaque)
refinement routine `ipod`, the candidate-orbit table with its id
projection, the optional membership and observation tables, and the
projections/sort keys used when assembling per-identifier observations.
All tables are read-only for the duration of a run. -/
structure WorkerCtx (ι κ σ μ ω ε α β γ δ : Type) where
  ipodFn : List κ → Option (ODObs μ ω) → Except ε (Batches α β γ δ)
  orbitIdOf : κ → ι
  orbits : List κ
  orbit_members : Option (List (ι × σ))
  observations : Option (List μ)
  obsIdOf : μ → σ
  obsKey : μ → Nat × Nat × Nat
  observerOf : μ → ω
  observerKey : ω → Nat × Nat × Nat

variable {ι κ σ μ ω ε α β γ δ : Type}

/-- Line 65 of src/ipod/main.py: `orbits.select("orbit_id", orbit_id)`,
the quivr row filter keeping the rows whose orbit id equals the given
identifier (possibly none of them). -/
def selectOrbit [DecidableEq ι] (ctx : WorkerCtx ι κ σ μ ω ε α β γ δ)
    (id : ι) : List κ :=
  ctx.orbits.filter (fun r => ctx.orbitIdOf r == id)

/-- Lines 67-97 of src/ipod/main.py: the observation argument handed to
the refinement routine for one identifier.  Only when the membership
table and the observation table are both present is an observation set
assembled (member obs ids for the identifier, the matching observation
rows sorted by time/origin, and the observer records sorted the same
way); otherwise the refinement routine receives `None`. -/
def orbitObservationsFor [DecidableEq ι] [DecidableEq σ]
    (ctx : WorkerCtx ι κ σ μ ω ε α β γ δ) (id : ι) : Option (ODObs μ ω) :=
  match ctx.orbit_members, ctx.observations with
  | some ms, some os =>
    let obs_ids := (ms.filter (fun m => m.1 == id)).map Prod.snd
    let sel := os.filter (fun o => obs_ids.contains (ctx.obsIdOf o))
    let sorted := sortLe (fun a b => tripleLe (ctx.obsKey a) (ctx.obsKey b)) sel
    let obsers := sortLe (fun a b => tripleLe (ctx.observerKey a) (ctx.observerKey b))
      (sorted.map ctx.observerOf)
    some { rows := sorted, observers := obsers }
  | _, _ => none

/-- The body of one iteration of the per-identifier loop of
`ipod_worker` (lines 63-122): select the candidate rows for the
identifier, assemble its observations, and invoke the refinement
routine, which either returns a result quadruple or raises. -/
def workerStep [DecidableEq ι] [DecidableEq σ]
    (ctx : WorkerCtx ι κ σ μ ω ε α β γ δ) (id : ι) :
    Except ε (Batches α β γ δ) :=
  ctx.ipodFn (selectOrbit ctx id) (orbitObservationsFor ctx id)

/-- The per-identifier loop of `ipod_worker` (lines 63-137).  Returns
the accumulated quadruple (or the first raised error), the trace of
refinement invocations (identifier and observation argument, in call
order), and the error log (`logger.error` of line 120, recording the
offending identifier with the error before it is re-raised).  On an
error the loop stops: no later identifier is processed. -/
def workerLoop [DecidableEq ι] [DecidableEq σ]
    (ctx : WorkerCtx ι κ σ μ ω ε α β γ δ) :
    List ι → Batches α β γ δ →
    Except ε (Batches α β γ δ) × List (ι × Option (ODObs μ ω)) × List (ι × ε)
  | [], acc => (.ok acc, [], [])
  | id :: rest, acc =>
    let obs := orbitObservationsFor ctx id
    match ctx.ipodFn (selectOrbit ctx id) obs with
    | .error e => (.error e, [(id, obs)], [(id, e)])
    | .ok b =>
      let r := workerLoop ctx rest (Batches.merge acc b)
      (r.1, (id, obs) :: r.2.1, r.2.2)

/-- Outcome of one chunk-worker execution, instrumented with the
resource events the source performs on the precovery index: `opens`
counts `PrecoveryDatabase.from_dir` calls and `closes` counts
`database.frames.close()` calls actually executed on that control
path. -/
structure WorkerOut (ι μ ω ε α β γ δ : Type) where
  result : Except ε (Batches α β γ δ)
  calls : List (ι × Option (ODObs μ ω))
  errLog : List (ι × ε)
  opens : Nat
  closes : Nat

/-- `ipod_worker` (lines 26-139 of src/ipod/main.py).  When the
`database` argument is a directory path rather than an already-open
`PrecoveryDatabase` instance, the worker opens the index itself
(`databaseIsPath = true`, one open).  The function contains no close
call on any path, so `closes = 0` whatever happens. -/
def ipod_worker [DecidableEq ι] [DecidableEq σ] (databaseIsPath : Bool)
    (ctx : WorkerCtx ι κ σ μ ω ε α β γ δ) (orbit_ids : List ι) :
    WorkerOut ι μ ω ε α β γ δ :=
  let r := workerLoop ctx orbit_ids Batches.empty
  { result := r.1, calls := r.2.1, errLog := r.2.2,
    opens := if databaseIsPath then 1 else 0, closes := 0 }

/-- `ipod_worker_remote` (lines 142-203 of src/ipod/main.py): opens the
precovery index from the directory (one open), slices
`orbit_ids[indices.0 : indices.1]`, runs `ipod_worker` on the slice with
the open instance, and executes `database.frames.close()` only if
`ipod_worker` returned normally — the function has no try/finally, so a
raised error propagates before the close call is reached. -/
def ipod_worker_remote [DecidableEq ι] [DecidableEq σ]
    (ctx : WorkerCtx ι κ σ μ ω ε α β γ δ) (orbit_ids : List ι)
    (indices : Nat × Nat) : WorkerOut ι μ ω ε α β γ δ :=
  let chunk := (orbit_ids.drop indices.1).take (indices.2 - indices.1)
  let w := ipod_worker false ctx chunk
  { w with opens := w.opens + 1,
           closes := w.closes +
             match w.result with | .ok _ => 1 | .error _ => 0 }

/-- Fuel-based body of `_iterate_chunks`. -/
def iterateChunksAux (c : Nat) : Nat → List τ → List (List τ)
  | 0, _ => []
  | _, [] => []
  | fuel + 1, xs => xs.take c :: iterateChunksAux c fuel (xs.drop c)

/-- The `_iterate_chunks` generator of `adam_core.propagator.utils` used
by the sequential fallback path (line 425): successive slices of length
`c` of the input sequence, the last one shorter when `c` does not divide
the length.  The fuel argument only drives the recursion; `xs.length`
steps always suffice when `1 ≤ c`. -/
def _iterate_chunks (c : Nat) (xs : List τ) : List (List τ) :=
  if c = 0 then [] else iterateChunksAux c xs.length xs

/-- Fuel-based body of `_iterate_chunk_indices`. -/
def iterateChunkIndicesAux (c : Nat) : Nat → Nat → Nat → List (Nat × Nat)
  | 0, _, _ => []
  | fuel + 1, start, n =>
    if start < n then
      (start, min (start + c) n) :: iterateChunkIndicesAux c fuel (start + c) n
    else []

/-- The `_iterate_chunk_indices` generator of
`adam_core.propagator.utils` used by the distributed path (line 334):
the half-open index ranges `[i*c, min(i*c + c, n))` covering `[0, n)`
in order. -/
def _iterate_chunk_indices (n c : Nat) : List (Nat × Nat) :=
  if c = 0 then [] else iterateChunkIndicesAux c n 0 n

/-- Line 326-328 of src/ipod/main.py:
`np.minimum(np.ceil(len(orbit_ids) / max_processes).astype(int), chunk_size)`,
the effective chunk size computed on the distributed branch only.  On
naturals, `⌈n / w⌉ = (n + w - 1) / w` for `1 ≤ w`. -/
def effective_chunk_size (n w c : Nat) : Nat :=
  min ((n + w - 1) / w) c

/-- Mutable state of the distributed dispatch loops (lines 333-416):
the outstanding futures (each future stands for its eventual worker
outcome), the four running totals, the chunks dispatched so far in
submission order, the number of refinement invocations performed by
submitted workers, the trace of outstanding-set sizes recorded after
every submission and every completion, and the scheduling-oracle
counter. -/
structure RayAcc (ι μ ω ε α β γ δ : Type) where
  futures : List (WorkerOut ι μ ω ε α β γ δ)
  acc : Batches α β γ δ
  dispatched : List (List ι)
  refineCalls : Nat
  sizeTrace : List Nat
  t : Nat

/-- Initial dispatcher state: no outstanding task, empty totals. -/
def RayAcc.init : RayAcc ι μ ω ε α β γ δ :=
  ⟨[], Batches.empty, [], 0, [], 0⟩

/-- One `ray.wait(futures, num_returns=1)` followed by
`ray.get(finished[0])` and the merge of lines 369-387/398-416.  Which
outstanding task completes first is not deterministic; the scheduling
oracle picks it (modelled by rotating the outstanding list and taking
the head, which reaches every element).  If the completed task raised,
`ray.get` re-raises and the whole run aborts (`some e`); otherwise its
quadruple is merged into the running totals.  Callers only invoke this
with a nonempty outstanding list. -/
def waitOne (oracle : Nat → Nat) (st : RayAcc ι μ ω ε α β γ δ) :
    RayAcc ι μ ω ε α β γ δ × Option ε :=
  match st.futures.rotate (oracle st.t) with
  | [] => (st, none)
  | f :: rest =>
    let st1 := { st with
      futures := rest,
      t := st.t + 1,
      sizeTrace := st.sizeTrace ++ [rest.length] }
    match f.result with
    | .error e => (st1, some e)
    | .ok b => ({ st1 with acc := Batches.merge st1.acc b }, none)

/-- The submission loop (lines 333-387): for each chunk range, submit
`ipod_worker_remote` as one task; then, whenever the outstanding count
has reached `max_processes * 1.5` (on naturals: `3*w ≤ 2*len`), block on
one completion and merge it before submitting further.  An error raised
by a completed task propagates immediately, abandoning the rest of the
loop. -/
def submitLoop [DecidableEq ι] [DecidableEq σ] (oracle : Nat → Nat)
    (w : Nat) (ctx : WorkerCtx ι κ σ μ ω ε α β γ δ) (ids : List ι) :
    List (Nat × Nat) → RayAcc ι μ ω ε α β γ δ →
    RayAcc ι μ ω ε α β γ δ × Option ε
  | [], st => (st, none)
  | rng :: rest, st =>
    let fut := ipod_worker_remote ctx ids rng
    let st1 := { st with
      futures := st.futures ++ [fut],
      dispatched := st.dispatched ++ [(ids.drop rng.1).take (rng.2 - rng.1)],
      refineCalls := st.refineCalls + fut.calls.length,
      sizeTrace := st.sizeTrace ++ [st.futures.length + 1] }
    if 3 * w ≤ 2 * st1.futures.length then
      match waitOne oracle st1 with
      | (st2, none) => submitLoop oracle w ctx ids rest st2
      | (st2, some e) => (st2, some e)
    else submitLoop oracle w ctx ids rest st1

/-- The drain loop (lines 389-416): while tasks are outstanding, wait
for one completion and merge it; an error propagates immediately.  The
fuel argument only drives the recursion; `futures.length` steps always
suffice because each iteration removes exactly one task. -/
def drainLoop (oracle : Nat → Nat) :
    Nat → RayAcc ι μ ω ε α β γ δ →
    RayAcc ι μ ω ε α β γ δ × Option ε
  | 0, st => (st, none)
  | fuel + 1, st =>
    if st.futures.isEmpty then (st, none)
    else
      match waitOne oracle st with
      | (st1, none) => drainLoop oracle fuel st1
      | (st1, some e) => (st1, some e)

/-- Externally observable outcome of one run of the top-level entry
point: the final quadruple (or the propagated error), the identifier
chunks handed to workers in submission order, the number of refinement
invocations performed, and the outstanding-set size trace of the
distributed dispatcher (empty on the sequential path, which keeps no
task set). -/
structure RunOut (ι ε α β γ δ : Type) where
  result : Except ε (Batches α β γ δ)
  dispatched : List (List ι)
  refineCalls : Nat
  sizeTrace : List Nat

/-- Submission followed by drain, from the empty dispatcher state: the
common shape of the distributed branch once the chunk ranges are
fixed. -/
def rayDispatch [DecidableEq ι] [DecidableEq σ] (oracle : Nat → Nat)
    (w : Nat) (ctx : WorkerCtx ι κ σ μ ω ε α β γ δ) (ids : List ι)
    (ranges : List (Nat × Nat)) : RunOut ι ε α β γ δ :=
  match submitLoop oracle w ctx ids ranges RayAcc.init with
  | (st, some e) => ⟨.error e, st.dispatched, st.refineCalls, st.sizeTrace⟩
  | (st, none) =>
    match drainLoop oracle st.futures.length st with
    | (st2, some e) => ⟨.error e, st2.dispatched, st2.refineCalls, st2.sizeTrace⟩
    | (st2, none) => ⟨.ok st2.acc, st2.dispatched, st2.refineCalls, st2.sizeTrace⟩

/-- The distributed branch (lines 300-422): compute the effective chunk
size, submit the chunk ranges produced by `_iterate_chunk_indices`
through the bounded-concurrency submission loop, then drain the
remaining outstanding tasks. -/
def rayRun [DecidableEq ι] [DecidableEq σ] (oracle : Nat → Nat)
    (ctx : WorkerCtx ι κ σ μ ω ε α β γ δ) (chunk_size w : Nat) :
    RunOut ι ε α β γ δ :=
  rayDispatch oracle w ctx (ctx.orbits.map ctx.orbitIdOf)
    (_iterate_chunk_indices (ctx.orbits.map ctx.orbitIdOf).length
      (effective_chunk_size (ctx.orbits.map ctx.orbitIdOf).length w chunk_size))

/-- Fuel-based body of the sequential fallback loop (lines 424-468):
take the next slice of `chunk_size` identifiers (the `_iterate_chunks`
generator yields exactly these slices), run `ipod_worker` on it
in-process with the database directory path, and merge its quadruple; a
raised error propagates immediately, so chunks after the failing one
are never started. -/
def seqLoopAux [DecidableEq ι] [DecidableEq σ]
    (ctx : WorkerCtx ι κ σ μ ω ε α β γ δ) (c : Nat) :
    Nat → List ι → RayAcc ι μ ω ε α β γ δ →
    RayAcc ι μ ω ε α β γ δ × Option ε
  | 0, _, st => (st, none)
  | fuel + 1, ids, st =>
    if ids = [] then (st, none)
    else
      let chunk := ids.take c
      let wkr := ipod_worker true ctx chunk
      let st1 := { st with
        dispatched := st.dispatched ++ [chunk],
        refineCalls := st.refineCalls + wkr.calls.length }
      match wkr.result with
      | .error e => (st1, some e)
      | .ok b =>
        seqLoopAux ctx c fuel (ids.drop c)
          { st1 with acc := Batches.merge st1.acc b }

/-- The sequential fallback branch (lines 424-468), driven by the
nominal `chunk_size` exactly as the source: the effective-chunk-size
computation of line 326 happens on the distributed branch only. -/
def seqRun [DecidableEq ι] [DecidableEq σ]
    (ctx : WorkerCtx ι κ σ μ ω ε α β γ δ) (chunk_size : Nat) :
    RunOut ι ε α β γ δ :=
  let ids := ctx.orbits.map ctx.orbitIdOf
  match seqLoopAux ctx chunk_size ids.length ids RayAcc.init with
  | (st, some e) => ⟨.error e, st.dispatched, st.refineCalls, st.sizeTrace⟩
  | (st, none) => ⟨.ok st.acc, st.dispatched, st.refineCalls, st.sizeTrace⟩

/-- The top-level entry point
`iterative_precovery_and_differential_correction` (lines 209-478 of
src/ipod/main.py), at the level of the values the claims observe: if
the input orbit table is empty, return the four empty collections at
once (lines 273-287) — no chunk is planned, no task submitted, no
refinement invoked; otherwise run the distributed branch (when the ray
runtime is available) or the sequential fallback. -/
def iterative_precovery_and_differential_correction
    [DecidableEq ι] [DecidableEq σ] (use_ray : Bool) (oracle : Nat → Nat)
    (ctx : WorkerCtx ι κ σ μ ω ε α β γ δ) (chunk_size max_processes : Nat) :
    RunOut ι ε α β γ δ :=
  if ctx.orbits.length = 0 then ⟨.ok Batches.empty, [], 0, []⟩
  else if use_ray then rayRun oracle ctx chunk_size max_processes
  else seqRun ctx chunk_size

/-- Modelled from the spec: the repository refinement routine `ipod`
(file `ipod.py` of this repository, imported at line 21 of
src/ipod/main.py but not included under src/).  Spec section 4.3 step 1
says the candidate-orbit row selected for an identifier "must exist
exactly once; absence is a hard error", and section 7 classifies this
lookup failure as fatal to the chunk.  The model therefore raises
`lookupErr` when the candidate selection handed to it is empty, and
otherwise returns the result of an abstract successful refinement. -/
def ipodModelled (lookupErr : ε)
    (refineOk : List κ → Option (ODObs μ ω) → Batches α β γ δ)
    (sel : List κ) (obs : Option (ODObs μ ω)) :
    Except ε (Batches α β γ δ) :=
  if sel.isEmpty then .error lookupErr else .ok (refineOk sel obs)

/-- An argument of the top-level entry point that may be either a local
value or an `ray.ObjectRef` already placed by the caller. -/
inductive MaybeRef (v : Type) where
  | value (x : v)
  | ref (r : Nat)
  deriving DecidableEq

/-- A value held in the shared object store: one of the four shared
inputs of a run (`orbit_ids`, orbits, orbit members, observations). -/
inductive InputVal (I O M B : Type) where
  | ids (x : I)
  | orbits (x : O)
  | members (x : M)
  | obs (x : B)
  deriving DecidableEq

/-- Projection of a stored value to an orbit table. -/
def InputVal.orbitsVal : InputVal I O M B → Option O
  | .orbits x => some x
  | _ => none

/-- Projection of a stored value to a membership table. -/
def InputVal.membersVal : InputVal I O M B → Option M
  | .members x => some x
  | _ => none

/-- Projection of a stored value to an observation table. -/
def InputVal.obsVal : InputVal I O M B → Option B
  | .obs x => some x
  | _ => none

/-- The ray shared object store: a counter of fresh references and the
live entries.  `ray.put` allocates a fresh reference, `ray.get`
dereferences, `ray.internal.free` removes exactly the listed
references. -/
structure RayStore (v : Type) where
  nextId : Nat
  entries : List (Nat × v)
  deriving DecidableEq

/-- `ray.get`: look up a reference. -/
def RayStore.getRef (s : RayStore v) (r : Nat) : Option v :=
  (s.entries.find? (fun e => e.1 == r)).map (·.2)

/-- `ray.put`: place a value, returning a fresh reference. -/
def RayStore.put (s : RayStore v) (x : v) : Nat × RayStore v :=
  (s.nextId, ⟨s.nextId + 1, (s.nextId, x) :: s.entries⟩)

/-- `ray.internal.free`: drop exactly the listed references. -/
def RayStore.free (s : RayStore v) (rs : List Nat) : RayStore v :=
  { s with entries := s.entries.filter (fun e => ! rs.contains e.1) }

/-- Well-formedness of a store: every live reference was allocated by
the counter. -/
def RayStore.WF (s : RayStore v) : Prop :=
  ∀ p ∈ s.entries, p.1 < s.nextId

/-- Which of the shared inputs a `ray.put` call placed. -/
inductive InputTag where
  | ids
  | orbits
  | members
  | obs
  deriving DecidableEq

/-- Outcome of the shared-input placement phase of the entry point: the
store after all puts, the references handed to every chunk task, the
locally materialized values, the references recorded for the
end-of-dispatch free, and the trace of `ray.put` calls made by this
run. -/
structure SetupOut (I O M B : Type) where
  store : RayStore (InputVal I O M B)
  orbit_ids_ref : Nat
  orbits_ref : Option Nat
  orbit_members_ref : Option Nat
  observations_ref : Option Nat
  localOrbits : O
  localMembers : Option M
  localObs : Option B
  refs_to_free : List Nat
  puts : List InputTag
  deriving DecidableEq

/-- Lines 314-324 pattern shared by the optional inputs: a
caller-supplied reference is passed through unchanged and nothing is
placed; a local value (when present) is placed once, its reference
recorded in `refs_to_free`; an absent input is skipped. -/
def placeOptional (s : RayStore (InputVal I O M B)) (tag : InputTag)
    (ref0 : Option Nat) (val0 : Option (InputVal I O M B)) :
    RayStore (InputVal I O M B) × Option Nat × List Nat × List InputTag :=
  match ref0, val0 with
  | some r, _ => (s, some r, [], [])
  | none, some v =>
    let p := s.put v
    (p.2, some p.1, [p.1], [tag])
  | none, none => (s, none, [], [])

/-- Lines 252-257: resolve the `orbits` argument.  A caller-supplied
reference is kept and its value read back from the store (`ray.get`,
which raises — here `none` — if the reference is dangling); a local
value is kept with no reference. -/
def resolveOrbitsArg (s0 : RayStore (InputVal I O M B))
    (arg : MaybeRef O) : Option (Option Nat × O) :=
  match arg with
  | .ref r => do
    let v ← s0.getRef r
    let o ← v.orbitsVal
    pure (some r, o)
  | .value x => pure (none, x)

/-- Lines 259-264: resolve the optional `orbit_members` argument. -/
def resolveMembersArg (s0 : RayStore (InputVal I O M B))
    (arg : Option (MaybeRef M)) : Option (Option Nat × Option M) :=
  match arg with
  | none => pure (none, none)
  | some (.ref r) => do
    let v ← s0.getRef r
    let m ← v.membersVal
    pure (some r, some m)
  | some (.value x) => pure (none, some x)

/-- Lines 266-271: resolve the optional `observations` argument. -/
def resolveObsArg (s0 : RayStore (InputVal I O M B))
    (arg : Option (MaybeRef B)) : Option (Option Nat × Option B) :=
  match arg with
  | none => pure (none, none)
  | some (.ref r) => do
    let v ← s0.getRef r
    let b ← v.obsVal
    pure (some r, some b)
  | some (.value x) => pure (none, some x)

/-- Lines 300-324 on the distributed branch: place `orbit_ids` always,
then each of orbits / orbit members / observations only when no
caller-supplied reference exists for it, recording every reference this
run placed (and the matching put trace). -/
def placePhase (s0 : RayStore (InputVal I O M B))
    (orbitsRes : Option Nat × O) (membersRes : Option Nat × Option M)
    (obsRes : Option Nat × Option B) (deriveIds : O → I) :
    SetupOut I O M B :=
  let pIds := s0.put (.ids (deriveIds orbitsRes.2))
  let pOrbits := placeOptional pIds.2 .orbits orbitsRes.1
    (some (.orbits orbitsRes.2))
  let pMembers := placeOptional pOrbits.1 .members membersRes.1
    (membersRes.2.map (fun m => .members m))
  let pObs := placeOptional pMembers.1 .obs obsRes.1
    (obsRes.2.map (fun b => .obs b))
  { store := pObs.1
    orbit_ids_ref := pIds.1
    orbits_ref := pOrbits.2.1
    orbit_members_ref := pMembers.2.1
    observations_ref := pObs.2.1
    localOrbits := orbitsRes.2
    localMembers := membersRes.2
    localObs := obsRes.2
    refs_to_free :=
      [pIds.1] ++ pOrbits.2.2.1 ++ pMembers.2.2.1 ++ pObs.2.2.1
    puts := [InputTag.ids] ++ pOrbits.2.2.2 ++ pMembers.2.2.2 ++ pObs.2.2.2 }

/-- The shared-input broadcaster of the entry point: lines 252-271
(resolve each argument, reading a caller-supplied reference back from
the store) followed by lines 300-324 on the distributed branch (place
whatever has no reference yet).  Returns `none` when a `ray.get` on a
caller-supplied reference fails, which in the source raises before any
placement. -/
def sharedInputSetup (s0 : RayStore (InputVal I O M B))
    (orbitsArg : MaybeRef O) (membersArg : Option (MaybeRef M))
    (obsArg : Option (MaybeRef B)) (deriveIds : O → I) :
    Option (SetupOut I O M B) := do
  let orbitsRes ← resolveOrbitsArg s0 orbitsArg
  let membersRes ← resolveMembersArg s0 membersArg
  let obsRes ← resolveObsArg s0 obsArg
  pure (placePhase s0 orbitsRes membersRes obsRes deriveIds)

/-- The four collections of a quadruple viewed as unordered multisets,
the view under which the spec states accumulation-order independence. -/
def Batches.mSet (b : Batches α β γ δ) :
    Multiset α × Multiset β × Multiset γ × Multiset δ :=
  ((b.orbits : Multiset α), (b.members : Multiset β),
   (b.candidates : Multiset γ), (b.summaries : Multiset δ))

theorem Batches.mSet_merge (x y : Batches α β γ δ) :
    (x.merge y).mSet = x.mSet + y.mSet := by
  simp only [Batches.merge, Batches.mSet, Prod.mk_add_mk, ← Multiset.coe_add]

theorem Batches.mSet_empty : (Batches.empty : Batches α β γ δ).mSet = 0 := rfl

/-- The quadruple produced by a successful refinement of one
identifier (the empty quadruple for a failing one; only used under
hypotheses that rule failures out). -/
def stepBatch [DecidableEq ι] [DecidableEq σ]
    (ctx : WorkerCtx ι κ σ μ ω ε α β γ δ) (id : ι) : Batches α β γ δ :=
  match workerStep ctx id with
  | .ok b => b
  | .error _ => Batches.empty

/-- The multiset total of the per-identifier quadruples over a list of
identifiers: the reference value both run paths must accumulate. -/
def idsTotal [DecidableEq ι] [DecidableEq σ]
    (ctx : WorkerCtx ι κ σ μ ω ε α β γ δ) (ids : List ι) :
    Multiset α × Multiset β × Multiset γ × Multiset δ :=
  (ids.map (fun id => (stepBatch ctx id).mSet)).sum

theorem idsTotal_nil [DecidableEq ι] [DecidableEq σ]
    (ctx : WorkerCtx ι κ σ μ ω ε α β γ δ) : idsTotal ctx [] = 0 := rfl

theorem idsTotal_cons [DecidableEq ι] [DecidableEq σ]
    (ctx : WorkerCtx ι κ σ μ ω ε α β γ δ) (id : ι) (ids : List ι) :
    idsTotal ctx (id :: ids) = (stepBatch ctx id).mSet + idsTotal ctx ids := by
  simp [idsTotal]

theorem idsTotal_append [DecidableEq ι] [DecidableEq σ]
    (ctx : WorkerCtx ι κ σ μ ω ε α β γ δ) (xs ys : List ι) :
    idsTotal ctx (xs ++ ys) = idsTotal ctx xs + idsTotal ctx ys := by
  simp [idsTotal]

theorem workerLoop_allOk [DecidableEq ι] [DecidableEq σ]
    (ctx : WorkerCtx ι κ σ μ ω ε α β γ δ) (ids : List ι) :
    ∀ acc : Batches α β γ δ,
      (∀ id ∈ ids, ∃ b, workerStep ctx id = .ok b) →
      ∃ b, workerLoop ctx ids acc =
          (.ok b, ids.map (fun id => (id, orbitObservationsFor ctx id)), []) ∧
        b.mSet = acc.mSet + idsTotal ctx ids := by
  induction ids with
  | nil =>
    intro acc _
    exact ⟨acc, rfl, by simp [idsTotal_nil]⟩
  | cons id rest ih =>
    intro acc h
    obtain ⟨b1, hb1⟩ := h id (List.mem_cons_self id rest)
    unfold workerStep at hb1
    obtain ⟨b, hrec, hm⟩ :=
      ih (acc.merge b1) (fun i hi => h i (List.mem_cons_of_mem _ hi))
    refine ⟨b, ?_, ?_⟩
    · simp only [workerLoop, hb1, hrec, List.map_cons]
    · rw [hm, Batches.mSet_merge, idsTotal_cons, add_assoc]
      have : stepBatch ctx id = b1 := by
        unfold stepBatch workerStep
        rw [hb1]
      rw [this]

theorem workerLoop_firstErr [DecidableEq ι] [DecidableEq σ]
    (ctx : WorkerCtx ι κ σ μ ω ε α β γ δ) (pre : List ι) (bad : ι)
    (post : List ι) (e : ε)
    (hpre : ∀ id ∈ pre, ∃ b, workerStep ctx id = .ok b)
    (hbad : workerStep ctx bad = .error e) :
    ∀ acc : Batches α β γ δ,
      workerLoop ctx (pre ++ bad :: post) acc =
        (.error e,
         (pre ++ [bad]).map (fun id => (id, orbitObservationsFor ctx id)),
         [(bad, e)]) := by
  unfold workerStep at hbad
  induction pre with
  | nil =>
    intro acc
    simp only [List.nil_append, workerLoop, hbad, List.map_cons, List.map_nil]
  | cons id rest ih =>
    intro acc
    obtain ⟨b1, hb1⟩ := hpre id (List.mem_cons_self id rest)
    unfold workerStep at hb1
    have := ih (fun i hi => hpre i (List.mem_cons_of_mem _ hi)) (acc.merge b1)
    simp only [List.cons_append, workerLoop, hb1, this, List.map_cons,
      List.append_eq]

theorem workerLoop_ok_all [DecidableEq ι] [DecidableEq σ]
    (ctx : WorkerCtx ι κ σ μ ω ε α β γ δ) (ids : List ι) :
    ∀ (acc : Batches α β γ δ) b cs lg,
      workerLoop ctx ids acc = (.ok b, cs, lg) →
      ∀ id ∈ ids, ∃ bb, workerStep ctx id = .ok bb := by
  induction ids with
  | nil => intro _ _ _ _ _ id hid; exact absurd hid (List.not_mem_nil id)
  | cons id rest ih =>
    intro acc b cs lg h i hi
    rcases hstep : ctx.ipodFn (selectOrbit ctx id) (orbitObservationsFor ctx id)
      with e | b1
    · simp only [workerLoop, hstep] at h
      simp at h
    · simp only [workerLoop, hstep] at h
      rcases List.mem_cons.mp hi with rfl | hi2
      · exact ⟨b1, by unfold workerStep; rw [hstep]⟩
      · rcases hrec : workerLoop ctx rest (acc.merge b1) with ⟨r1, r2, r3⟩
        rw [hrec] at h
        simp only [Prod.mk.injEq] at h
        exact ih (acc.merge b1) b r2 r3 (by rw [hrec, h.1]) i hi2

theorem iterateChunksAux_join {c : Nat} (hc : 1 ≤ c) :
    ∀ (fuel : Nat) (xs : List τ), xs.length ≤ fuel →
      (iterateChunksAux c fuel xs).flatten = xs := by
  intro fuel
  induction fuel with
  | zero =>
    intro xs h
    rw [Nat.le_zero, List.length_eq_zero] at h
    subst h
    rfl
  | succ n ih =>
    intro xs h
    cases xs with
    | nil => rfl
    | cons x tl =>
      have hlen : ((x :: tl).drop c).length ≤ n := by
        simp only [List.length_drop, List.length_cons] at *
        omega
      simp only [iterateChunksAux, List.flatten_cons, ih _ hlen,
        List.take_append_drop]

theorem _iterate_chunks_join {c : Nat} (hc : 1 ≤ c) (xs : List τ) :
    (_iterate_chunks c xs).flatten = xs := by
  unfold _iterate_chunks
  rw [if_neg (by omega)]
  exact iterateChunksAux_join hc _ xs le_rfl

theorem iterateChunkIndicesAux_map_slice {c : Nat} (_hc : 1 ≤ c)
    (ids : List τ) :
    ∀ (fuel s : Nat),
      (iterateChunkIndicesAux c fuel s ids.length).map
          (fun r => (ids.drop r.1).take (r.2 - r.1)) =
        iterateChunksAux c fuel (ids.drop s) := by
  intro fuel
  induction fuel with
  | zero => intro s; simp [iterateChunkIndicesAux, iterateChunksAux]
  | succ n ih =>
    intro s
    by_cases hs : s < ids.length
    · have hne : ids.drop s ≠ [] := by
        intro hnil
        have h2 := List.length_drop s ids
        rw [hnil] at h2
        simp only [List.length_nil] at h2
        omega
      obtain ⟨y, ys, hys⟩ := List.exists_cons_of_ne_nil hne
      have hslice : (ids.drop s).take (min (s + c) ids.length - s) =
          (ids.drop s).take c := by
        rcases le_total (s + c) ids.length with hle | hle
        · rw [min_eq_left hle, Nat.add_sub_cancel_left]
        · have h1 : (ids.drop s).length = ids.length - s := List.length_drop s ids
          rw [min_eq_right hle, List.take_eq_take, h1, Nat.min_self,
            Nat.min_eq_right (by omega)]
      have hdrop : ids.drop (s + c) = (ids.drop s).drop c := by
        rw [List.drop_drop, Nat.add_comm]
      simp only [iterateChunkIndicesAux, if_pos hs, List.map_cons, ih (s + c),
        hdrop]
      rw [hys]
      simp only [iterateChunksAux]
      congr 1
      rw [← hys]
      exact hslice
    · rw [List.drop_eq_nil_of_le (by omega)]
      simp only [iterateChunkIndicesAux, if_neg hs, List.map_nil]
      rfl

theorem _iterate_chunk_indices_map_slice {c : Nat} (hc : 1 ≤ c)
    (ids : List τ) :
    (_iterate_chunk_indices ids.length c).map
        (fun r => (ids.drop r.1).take (r.2 - r.1)) =
      _iterate_chunks c ids := by
  unfold _iterate_chunk_indices _iterate_chunks
  rw [if_neg (by omega), if_neg (by omega)]
  have := iterateChunkIndicesAux_map_slice hc ids ids.length 0
  rw [List.drop_zero] at this
  exact this

/-- The quadruple a completed future contributes when merged (the empty
quadruple for a failed future, which is never merged on a normal
path). -/
def WorkerOut.okBatch (f : WorkerOut ι μ ω ε α β γ δ) : Batches α β γ δ :=
  match f.result with
  | .ok b => b
  | .error _ => Batches.empty

/-- Multiset total of the contributions of a list of futures. -/
def futSum (fs : List (WorkerOut ι μ ω ε α β γ δ)) :
    Multiset α × Multiset β × Multiset γ × Multiset δ :=
  (fs.map (fun f => f.okBatch.mSet)).sum

theorem futSum_nil : futSum ([] : List (WorkerOut ι μ ω ε α β γ δ)) = 0 := rfl

theorem futSum_cons (f : WorkerOut ι μ ω ε α β γ δ) (fs) :
    futSum (f :: fs) = f.okBatch.mSet + futSum fs := by
  simp [futSum]

theorem futSum_append (fs gs : List (WorkerOut ι μ ω ε α β γ δ)) :
    futSum (fs ++ gs) = futSum fs + futSum gs := by
  simp [futSum]

theorem futSum_perm {fs gs : List (WorkerOut ι μ ω ε α β γ δ)}
    (h : fs.Perm gs) : futSum fs = futSum gs :=
  (h.map _).sum_eq

/-- The dispatcher state after removing one completed future from the
outstanding set (common part of both `waitOne` outcomes). -/
def popState (st : RayAcc ι μ ω ε α β γ δ)
    (rest : List (WorkerOut ι μ ω ε α β γ δ)) : RayAcc ι μ ω ε α β γ δ :=
  { st with
    futures := rest,
    t := st.t + 1,
    sizeTrace := st.sizeTrace ++ [rest.length] }

/-- Case analysis of one `ray.wait` + merge step on a nonempty
outstanding set. -/
theorem waitOne_spec (oracle : Nat → Nat) (st : RayAcc ι μ ω ε α β γ δ)
    (h : st.futures ≠ []) :
    ∃ f rest, st.futures.Perm (f :: rest) ∧
      rest.length + 1 = st.futures.length ∧
      ((∃ e, f.result = .error e ∧
          waitOne oracle st = (popState st rest, some e)) ∨
       (∃ b, f.result = .ok b ∧
          waitOne oracle st =
            ({ popState st rest with
               acc := Batches.merge st.acc b }, none))) := by
  rcases hrot : st.futures.rotate (oracle st.t) with _ | ⟨f, rest⟩
  · exfalso
    have := List.length_rotate st.futures (oracle st.t)
    rw [hrot] at this
    simp only [List.length_nil] at this
    exact h (List.length_eq_zero.mp this.symm)
  · refine ⟨f, rest, ?_, ?_, ?_⟩
    · have := List.rotate_perm st.futures (oracle st.t)
      rw [hrot] at this
      exact this.symm
    · have := List.length_rotate st.futures (oracle st.t)
      rw [hrot] at this
      simpa using this
    · cases hres : f.result with
      | error e =>
        exact Or.inl ⟨e, rfl, by simp only [waitOne, hrot, hres, popState]⟩
      | ok b =>
        exact Or.inr ⟨b, rfl, by simp only [waitOne, hrot, hres, popState]⟩

/-- Specification of the drain loop exiting without error: all
outstanding futures get merged (in some order), every one of them had
a successful result, and the conservation equation for the running
totals holds; the dispatched-chunk record is untouched. -/
theorem drainLoop_none_spec (oracle : Nat → Nat) :
    ∀ (fuel : Nat) (st st' : RayAcc ι μ ω ε α β γ δ),
      st.futures.length ≤ fuel →
      drainLoop oracle fuel st = (st', none) →
      st'.futures = [] ∧
      st'.acc.mSet = st.acc.mSet + futSum st.futures ∧
      (∀ f ∈ st.futures, ∃ b, f.result = .ok b) ∧
      st'.dispatched = st.dispatched := by
  intro fuel
  induction fuel with
  | zero =>
    intro st st' hlen h
    have hnil : st.futures = [] :=
      List.length_eq_zero.mp (Nat.le_zero.mp hlen)
    rw [drainLoop] at h
    injection h with h1 h2
    subst h1
    refine ⟨hnil, by simp [hnil, futSum_nil], ?_, rfl⟩
    intro f hf
    rw [hnil] at hf
    exact absurd hf (List.not_mem_nil f)
  | succ n ih =>
    intro st st' hlen h
    rw [drainLoop] at h
    by_cases hemp : st.futures.isEmpty
    · rw [if_pos hemp] at h
      injection h with h1 h2
      subst h1
      have hnil : st.futures = [] := List.isEmpty_iff.mp hemp
      refine ⟨hnil, by simp [hnil, futSum_nil], ?_, rfl⟩
      intro f hf
      rw [hnil] at hf
      exact absurd hf (List.not_mem_nil f)
    · rw [if_neg hemp] at h
      have hne : st.futures ≠ [] := by
        intro hnil
        exact hemp (by simp [hnil])
      obtain ⟨f, rest, hperm, hlen1, hcase⟩ := waitOne_spec oracle st hne
      rcases hcase with ⟨e, _, hw⟩ | ⟨b, hres, hw⟩
      · rw [hw] at h
        injection h with h1 h2
        exact absurd h2 (by simp)
      · rw [hw] at h
        dsimp only [popState] at h
        have hrl : rest.length ≤ n := by omega
        obtain ⟨h1, h2, h3, h4⟩ := ih _ _ hrl h
        dsimp only at h2 h3 h4
        refine ⟨h1, ?_, ?_, h4⟩
        · rw [h2]
          simp only [Batches.mSet_merge]
          rw [futSum_perm hperm, futSum_cons]
          have hok : f.okBatch = b := by
            unfold WorkerOut.okBatch
            rw [hres]
          rw [hok, add_assoc]
        · intro g hg
          rcases List.mem_cons.mp ((hperm.mem_iff).mp hg) with hg1 | hg2
          · subst hg1
            exact ⟨b, hres⟩
          · exact h3 g hg2

/-- Specification of the submission loop exiting without error:
conservation of the merged-plus-outstanding total, the full dispatched
record, the fact that a failed future is never consumed on an
error-free path (it must still be outstanding at the end), and the
provenance of every outstanding future. -/
theorem submitLoop_none_spec [DecidableEq ι] [DecidableEq σ]
    (oracle : Nat → Nat) (w : Nat) (ctx : WorkerCtx ι κ σ μ ω ε α β γ δ)
    (ids : List ι) :
    ∀ (ranges : List (Nat × Nat)) (st st' : RayAcc ι μ ω ε α β γ δ),
      submitLoop oracle w ctx ids ranges st = (st', none) →
      st'.acc.mSet + futSum st'.futures =
        st.acc.mSet + futSum st.futures +
          (ranges.map
            (fun rng => (ipod_worker_remote ctx ids rng).okBatch.mSet)).sum ∧
      st'.dispatched = st.dispatched ++
        ranges.map (fun rng => (ids.drop rng.1).take (rng.2 - rng.1)) ∧
      (∀ f e, f.result = Except.error e →
        (f ∈ st.futures ∨ ∃ rng ∈ ranges, f = ipod_worker_remote ctx ids rng) →
        f ∈ st'.futures) ∧
      (∀ f ∈ st'.futures,
        f ∈ st.futures ∨ ∃ rng ∈ ranges, f = ipod_worker_remote ctx ids rng) := by
  intro ranges
  induction ranges with
  | nil =>
    intro st st' h
    rw [submitLoop] at h
    injection h with h1 h2
    subst h1
    refine ⟨by simp, by simp, ?_, fun f hf => Or.inl hf⟩
    intro f e he hf
    rcases hf with hf | ⟨rng, hrng, _⟩
    · exact hf
    · exact absurd hrng (List.not_mem_nil rng)
  | cons rng rest ih =>
    intro st st' h
    rw [submitLoop] at h
    dsimp only at h
    set fut := ipod_worker_remote ctx ids rng with hfut
    set st1 : RayAcc ι μ ω ε α β γ δ := { st with
      futures := st.futures ++ [fut],
      dispatched := st.dispatched ++ [(ids.drop rng.1).take (rng.2 - rng.1)],
      refineCalls := st.refineCalls + fut.calls.length,
      sizeTrace := st.sizeTrace ++ [st.futures.length + 1] } with hst1
    have hfut1 : st1.futures = st.futures ++ [fut] := rfl
    have hsum1 : futSum st1.futures = futSum st.futures + fut.okBatch.mSet := by
      rw [hfut1, futSum_append, futSum_cons, futSum_nil, add_zero]
    by_cases hcond : 3 * w ≤ 2 * st1.futures.length
    · rw [if_pos hcond] at h
      have hne : st1.futures ≠ [] := by
        rw [hfut1]
        simp
      obtain ⟨f, rest1, hperm, hlen1, hcase⟩ := waitOne_spec oracle st1 hne
      rcases hcase with ⟨e, _, hw⟩ | ⟨b, hres, hw⟩
      · rw [hw] at h
        dsimp only at h
        injection h with h1 h2
        exact absurd h2 (by simp)
      · rw [hw] at h
        dsimp only at h
        obtain ⟨ih1, ih2, ih3, ih4⟩ := ih _ _ h
        dsimp only [popState] at ih1 ih2 ih3 ih4
        have hsumMid : (st1.acc.merge b).mSet + futSum rest1 =
            st.acc.mSet + futSum st.futures + fut.okBatch.mSet := by
          have hfb : f.okBatch = b := by
            unfold WorkerOut.okBatch
            rw [hres]
          have hthis : futSum st.futures + fut.okBatch.mSet =
              b.mSet + futSum rest1 := by
            have h0 : futSum st1.futures = f.okBatch.mSet + futSum rest1 := by
              rw [futSum_perm hperm, futSum_cons]
            rw [hsum1, hfb] at h0
            exact h0
          have hacc1 : st1.acc = st.acc := rfl
          rw [Batches.mSet_merge, hacc1, add_assoc, ← hthis, add_assoc]
        refine ⟨?_, ?_, ?_, ?_⟩
        · rw [ih1, hsumMid, List.map_cons, List.sum_cons]
          abel
        · rw [ih2]
          simp [List.append_assoc]
        · intro g e hg horig
          have hstay : g ∈ st1.futures → g ∈ rest1 := by
            intro hg1
            rcases List.mem_cons.mp (hperm.mem_iff.mp hg1) with hgf | hgr
            · exfalso
              rw [hgf, hres] at hg
              exact Except.noConfusion hg
            · exact hgr
          rcases horig with hg2 | ⟨rng2, hrng2, hg3⟩
          · exact ih3 g e hg (Or.inl (hstay (by
              rw [hfut1]
              exact List.mem_append_left _ hg2)))
          · rcases List.mem_cons.mp hrng2 with hr | hr
            · exact ih3 g e hg (Or.inl (hstay (by
                rw [hfut1, hg3, hr]
                exact List.mem_append_right _ (List.mem_singleton.mpr rfl))))
            · exact ih3 g e hg (Or.inr ⟨rng2, hr, hg3⟩)
        · intro g hg
          rcases ih4 g hg with hg1 | ⟨rng2, hrng2, hg2⟩
          · have : g ∈ st1.futures := hperm.mem_iff.mpr (List.mem_cons_of_mem f hg1)
            rw [hfut1] at this
            rcases List.mem_append.mp this with hx | hx
            · exact Or.inl hx
            · exact Or.inr ⟨rng, List.mem_cons_self rng rest,
                by rw [List.mem_singleton.mp hx]⟩
          · exact Or.inr ⟨rng2, List.mem_cons_of_mem rng hrng2, hg2⟩
    · rw [if_neg hcond] at h
      obtain ⟨ih1, ih2, ih3, ih4⟩ := ih _ _ h
      refine ⟨?_, ?_, ?_, ?_⟩
      · rw [ih1]
        have hacc1 : st1.acc = st.acc := rfl
        rw [hacc1, hsum1, List.map_cons, List.sum_cons]
        abel
      · rw [ih2]
        have hd1 : st1.dispatched =
            st.dispatched ++ [(ids.drop rng.1).take (rng.2 - rng.1)] := rfl
        rw [hd1]
        simp [List.append_assoc]
      · intro g e hg horig
        have hg1 : g ∈ st1.futures ∨
            ∃ rng2 ∈ rest, g = ipod_worker_remote ctx ids rng2 := by
          rcases horig with hg2 | ⟨rng2, hrng2, hg3⟩
          · exact Or.inl (by rw [hfut1]; exact List.mem_append_left _ hg2)
          · rcases List.mem_cons.mp hrng2 with hr | hr
            · refine Or.inl ?_
              rw [hfut1, hg3, hr]
              exact List.mem_append_right _ (List.mem_singleton.mpr rfl)
            · exact Or.inr ⟨rng2, hr, hg3⟩
        exact ih3 g e hg hg1
      · intro g hg
        rcases ih4 g hg with hg1 | ⟨rng2, hrng2, hg2⟩
        · rw [hfut1] at hg1
          rcases List.mem_append.mp hg1 with hx | hx
          · exact Or.inl hx
          · exact Or.inr ⟨rng, List.mem_cons_self rng rest,
              by rw [List.mem_singleton.mp hx]⟩
        · exact Or.inr ⟨rng2, List.mem_cons_of_mem rng hrng2, hg2⟩

/-- Size-trace bound through the submission loop: starting from a state
whose outstanding count satisfies `2·len ≤ 3w - 1` (strictly below the
admission threshold), every recorded outstanding-set size stays at or
below `⌈1.5·w⌉ = (3w+1)/2`, and an error-free exit re-establishes the
entry invariant. -/
theorem submitLoop_trace_bound [DecidableEq ι] [DecidableEq σ]
    (oracle : Nat → Nat) {w : Nat} (hw : 1 ≤ w)
    (ctx : WorkerCtx ι κ σ μ ω ε α β γ δ) (ids : List ι) :
    ∀ (ranges : List (Nat × Nat)) (st st' : RayAcc ι μ ω ε α β γ δ)
      (r : Option ε),
      submitLoop oracle w ctx ids ranges st = (st', r) →
      (∀ x ∈ st.sizeTrace, x ≤ (3 * w + 1) / 2) →
      2 * st.futures.length ≤ 3 * w - 1 →
      (∀ x ∈ st'.sizeTrace, x ≤ (3 * w + 1) / 2) ∧
      (r = none → 2 * st'.futures.length ≤ 3 * w - 1) := by
  intro ranges
  induction ranges with
  | nil =>
    intro st st' r h htr hlen
    rw [submitLoop] at h
    injection h with h1 h2
    subst h1
    subst h2
    exact ⟨htr, fun _ => hlen⟩
  | cons rng rest ih =>
    intro st st' r h htr hlen
    rw [submitLoop] at h
    dsimp only at h
    set fut := ipod_worker_remote ctx ids rng with hfut
    set st1 : RayAcc ι μ ω ε α β γ δ := { st with
      futures := st.futures ++ [fut],
      dispatched := st.dispatched ++ [(ids.drop rng.1).take (rng.2 - rng.1)],
      refineCalls := st.refineCalls + fut.calls.length,
      sizeTrace := st.sizeTrace ++ [st.futures.length + 1] } with hst1
    have hlen1 : st1.futures.length = st.futures.length + 1 := by
      simp [hst1]
    have htr1 : ∀ x ∈ st1.sizeTrace, x ≤ (3 * w + 1) / 2 := by
      intro x hx
      rcases List.mem_append.mp hx with hx | hx
      · exact htr x hx
      · rw [List.mem_singleton.mp hx]
        omega
    by_cases hcond : 3 * w ≤ 2 * st1.futures.length
    · rw [if_pos hcond] at h
      have hne : st1.futures ≠ [] := by
        intro h0
        rw [h0] at hlen1
        simp at hlen1
      obtain ⟨f, rest1, _, hlenr, hcase⟩ := waitOne_spec oracle st1 hne
      have hrest1 : rest1.length = st.futures.length := by omega
      have htr2 : ∀ x ∈ st1.sizeTrace ++ [rest1.length],
          x ≤ (3 * w + 1) / 2 := by
        intro x hx
        rcases List.mem_append.mp hx with hx | hx
        · exact htr1 x hx
        · rw [List.mem_singleton.mp hx]
          omega
      rcases hcase with ⟨e, _, hw2⟩ | ⟨b, _, hw2⟩
      · rw [hw2] at h
        dsimp only at h
        injection h with h1 h2
        subst h1
        subst h2
        refine ⟨htr2, ?_⟩
        intro hx
        exact absurd hx (by simp)
      · rw [hw2] at h
        dsimp only at h
        exact ih _ _ _ h htr2 (by dsimp only [popState]; omega)
    · rw [if_neg hcond] at h
      exact ih _ _ _ h htr1 (by omega)

/-- Size-trace bound through the drain loop: each iteration only
shrinks the outstanding set, so every recorded size stays at or below
any bound the entry state satisfied. -/
theorem drainLoop_trace_bound {B : Nat} (oracle : Nat → Nat) :
    ∀ (fuel : Nat) (st st' : RayAcc ι μ ω ε α β γ δ) (r : Option ε),
      drainLoop oracle fuel st = (st', r) →
      (∀ x ∈ st.sizeTrace, x ≤ B) →
      st.futures.length ≤ B →
      ∀ x ∈ st'.sizeTrace, x ≤ B := by
  intro fuel
  induction fuel with
  | zero =>
    intro st st' r h htr _
    rw [drainLoop] at h
    injection h with h1 _
    subst h1
    exact htr
  | succ n ih =>
    intro st st' r h htr hlen
    rw [drainLoop] at h
    by_cases hemp : st.futures.isEmpty
    · rw [if_pos hemp] at h
      injection h with h1 _
      subst h1
      exact htr
    · rw [if_neg hemp] at h
      have hne : st.futures ≠ [] := fun h0 => hemp (by simp [h0])
      obtain ⟨f, rest1, _, hlenr, hcase⟩ := waitOne_spec oracle st hne
      have htr2 : ∀ x ∈ st.sizeTrace ++ [rest1.length], x ≤ B := by
        intro x hx
        rcases List.mem_append.mp hx with hx | hx
        · exact htr x hx
        · rw [List.mem_singleton.mp hx]
          omega
      rcases hcase with ⟨e, _, hw2⟩ | ⟨b, _, hw2⟩
      · rw [hw2] at h
        injection h with h1 _
        subst h1
        exact htr2
      · rw [hw2] at h
        dsimp only [popState] at h
        exact ih _ _ _ h htr2 (by simpa using Nat.le_trans (by omega) hlen)

/-- Specification of the sequential fallback loop when every identifier
refines successfully: the loop returns without error, accumulates
exactly the per-identifier total, and dispatches exactly the
`_iterate_chunks` slices; it touches neither the outstanding-task set
nor the size trace (the sequential path has no dispatcher). -/
theorem seqLoopAux_allOk [DecidableEq ι] [DecidableEq σ]
    (ctx : WorkerCtx ι κ σ μ ω ε α β γ δ) {c : Nat} (hc : 1 ≤ c) :
    ∀ (fuel : Nat) (ids : List ι) (st : RayAcc ι μ ω ε α β γ δ),
      ids.length ≤ fuel →
      (∀ id ∈ ids, ∃ b, workerStep ctx id = .ok b) →
      ∃ st', seqLoopAux ctx c fuel ids st = (st', none) ∧
        st'.acc.mSet = st.acc.mSet + idsTotal ctx ids ∧
        st'.dispatched = st.dispatched ++ iterateChunksAux c fuel ids ∧
        st'.sizeTrace = st.sizeTrace ∧
        st'.futures = st.futures := by
  intro fuel
  induction fuel with
  | zero =>
    intro ids st hlen _
    have hnil : ids = [] := List.length_eq_zero.mp (Nat.le_zero.mp hlen)
    subst hnil
    exact ⟨st, rfl, by simp [idsTotal_nil], by simp [iterateChunksAux], rfl, rfl⟩
  | succ n ih =>
    intro ids st hlen hok
    by_cases hne : ids = []
    · subst hne
      refine ⟨st, ?_, by simp [idsTotal_nil], by simp [iterateChunksAux], rfl, rfl⟩
      rw [seqLoopAux, if_pos rfl]
    · have hchunkok : ∀ id ∈ ids.take c, ∃ b, workerStep ctx id = .ok b :=
        fun id hid => hok id (List.take_subset c ids hid)
      obtain ⟨b, hwl, hbm⟩ := workerLoop_allOk ctx (ids.take c) Batches.empty hchunkok
      have hdl : (ids.drop c).length ≤ n := by
        have h1 : ids.length ≠ 0 := fun h0 => hne (List.length_eq_zero.mp h0)
        simp only [List.length_drop]
        omega
      obtain ⟨st', hrec, hm, hd, htr, hfu⟩ := ih (ids.drop c)
        { st with
          dispatched := st.dispatched ++ [ids.take c],
          refineCalls := st.refineCalls +
            ((ids.take c).map
              (fun id => (id, orbitObservationsFor ctx id))).length,
          acc := Batches.merge st.acc b }
        hdl (fun id hid => hok id (List.drop_subset c ids hid))
      refine ⟨st', ?_, ?_, ?_, htr, hfu⟩
      · rw [seqLoopAux, if_neg hne]
        simp only [ipod_worker, hwl]
        exact hrec
      · rw [hm]
        dsimp only
        rw [Batches.mSet_merge, hbm, Batches.mSet_empty, zero_add, add_assoc,
          ← idsTotal_append, List.take_append_drop]
      · rw [hd]
        dsimp only
        have hchunks : iterateChunksAux c (n + 1) ids =
            ids.take c :: iterateChunksAux c n (ids.drop c) := by
          obtain ⟨y, ys, hys⟩ := List.exists_cons_of_ne_nil hne
          rw [hys]
          rfl
        rw [hchunks]
        simp [List.append_assoc]

/-- Specification of the sequential fallback loop on an input whose
first failing identifier is `bad`: the loop aborts with exactly the
error `bad` raised, whatever chunking the nominal size produces. -/
theorem seqLoopAux_firstErr [DecidableEq ι] [DecidableEq σ]
    (ctx : WorkerCtx ι κ σ μ ω ε α β γ δ) {c : Nat} (hc : 1 ≤ c) (e : ε)
    (bad : ι) (hbad : workerStep ctx bad = .error e) :
    ∀ (fuel : Nat) (pre post : List ι) (st : RayAcc ι μ ω ε α β γ δ),
      (pre ++ bad :: post).length ≤ fuel →
      (∀ id ∈ pre, ∃ b, workerStep ctx id = .ok b) →
      ∃ st', seqLoopAux ctx c fuel (pre ++ bad :: post) st = (st', some e) := by
  intro fuel
  induction fuel with
  | zero =>
    intro pre post st hlen _
    exfalso
    simp only [List.length_append, List.length_cons] at hlen
    omega
  | succ n ih =>
    intro pre post st hlen hpre
    have hne : pre ++ bad :: post ≠ [] := by
      intro h0
      have := congrArg List.length h0
      simp at this
    by_cases hcl : c ≤ pre.length
    · have htake : (pre ++ bad :: post).take c = pre.take c :=
        List.take_append_of_le_length hcl
      have hdrop : (pre ++ bad :: post).drop c = pre.drop c ++ bad :: post :=
        List.drop_append_of_le_length hcl
      have hchunkok : ∀ id ∈ (pre ++ bad :: post).take c,
          ∃ b, workerStep ctx id = .ok b := by
        rw [htake]
        exact fun id hid => hpre id (List.take_subset c pre hid)
      obtain ⟨b, hwl, _⟩ := workerLoop_allOk ctx ((pre ++ bad :: post).take c)
        Batches.empty hchunkok
      have hlend : ((pre.drop c) ++ bad :: post).length ≤ n := by
        simp only [List.length_append, List.length_cons, List.length_drop] at *
        omega
      obtain ⟨st', hrec⟩ := ih (pre.drop c) post
        { st with
          dispatched := st.dispatched ++ [(pre ++ bad :: post).take c],
          refineCalls := st.refineCalls +
            (((pre ++ bad :: post).take c).map
              (fun id => (id, orbitObservationsFor ctx id))).length,
          acc := Batches.merge st.acc b }
        hlend (fun id hid => hpre id (List.drop_subset c pre hid))
      refine ⟨st', ?_⟩
      rw [seqLoopAux, if_neg hne]
      simp only [ipod_worker, hwl]
      rw [hdrop]
      exact hrec
    · push_neg at hcl
      obtain ⟨k, hk⟩ : ∃ k, c - pre.length = k + 1 :=
        ⟨c - pre.length - 1, by omega⟩
      have htake : (pre ++ bad :: post).take c = pre ++ bad :: post.take k := by
        rw [List.take_append_eq_append_take, List.take_of_length_le (by omega), hk]
        rfl
      have hwl := workerLoop_firstErr ctx pre bad (post.take k) e hpre hbad
        Batches.empty
      refine ⟨{ st with
        dispatched := st.dispatched ++ [(pre ++ bad :: post).take c],
        refineCalls := st.refineCalls +
          ((pre ++ [bad]).map
            (fun id => (id, orbitObservationsFor ctx id))).length }, ?_⟩
      rw [seqLoopAux, if_neg hne]
      simp only [ipod_worker, htake, hwl]

theorem idsTotal_flatten [DecidableEq ι] [DecidableEq σ]
    (ctx : WorkerCtx ι κ σ μ ω ε α β γ δ) (ll : List (List ι)) :
    idsTotal ctx ll.flatten = (ll.map (idsTotal ctx)).sum := by
  induction ll with
  | nil => simp [idsTotal_nil]
  | cons l ls ih => simp [idsTotal_append, ih]

/-- When every submitted worker succeeds, the submission loop cannot
abort: it exits without error and every still-outstanding future is a
successful one. -/
theorem submitLoop_allOk_none [DecidableEq ι] [DecidableEq σ]
    (oracle : Nat → Nat) (w : Nat) (ctx : WorkerCtx ι κ σ μ ω ε α β γ δ)
    (ids : List ι) :
    ∀ (ranges : List (Nat × Nat)) (st : RayAcc ι μ ω ε α β γ δ),
      (∀ f ∈ st.futures, ∃ b, f.result = Except.ok b) →
      (∀ rng ∈ ranges,
        ∃ b, (ipod_worker_remote ctx ids rng).result = Except.ok b) →
      ∃ st', submitLoop oracle w ctx ids ranges st = (st', none) ∧
        (∀ f ∈ st'.futures, ∃ b, f.result = Except.ok b) := by
  intro ranges
  induction ranges with
  | nil =>
    intro st hfs _
    exact ⟨st, by rw [submitLoop], hfs⟩
  | cons rng rest ih =>
    intro st hfs hrs
    set fut := ipod_worker_remote ctx ids rng with hfut
    set st1 : RayAcc ι μ ω ε α β γ δ := { st with
      futures := st.futures ++ [fut],
      dispatched := st.dispatched ++ [(ids.drop rng.1).take (rng.2 - rng.1)],
      refineCalls := st.refineCalls + fut.calls.length,
      sizeTrace := st.sizeTrace ++ [st.futures.length + 1] } with hst1
    have hfs1 : ∀ f ∈ st1.futures, ∃ b, f.result = Except.ok b := by
      intro f hf
      rcases List.mem_append.mp hf with hf | hf
      · exact hfs f hf
      · rw [List.mem_singleton.mp hf]
        exact hrs rng (List.mem_cons_self rng rest)
    have hrs1 : ∀ rng2 ∈ rest,
        ∃ b, (ipod_worker_remote ctx ids rng2).result = Except.ok b :=
      fun rng2 h2 => hrs rng2 (List.mem_cons_of_mem rng h2)
    by_cases hcond : 3 * w ≤ 2 * st1.futures.length
    · have hne : st1.futures ≠ [] := by
        intro h0
        have := congrArg List.length h0
        simp [hst1] at this
      obtain ⟨f, rest1, hperm, _, hcase⟩ := waitOne_spec oracle st1 hne
      rcases hcase with ⟨e, hres, hw2⟩ | ⟨b, hres, hw2⟩
      · exfalso
        obtain ⟨b0, hb0⟩ := hfs1 f (hperm.mem_iff.mpr (List.mem_cons_self f rest1))
        rw [hres] at hb0
        exact Except.noConfusion hb0
      · have hfs2 : ∀ g ∈ rest1, ∃ b0, g.result = Except.ok b0 :=
          fun g hg => hfs1 g (hperm.mem_iff.mpr (List.mem_cons_of_mem f hg))
        obtain ⟨st', hrec, hfin⟩ := ih
          ({ popState st1 rest1 with acc := Batches.merge st1.acc b })
          (fun g hg => hfs2 g hg) hrs1
        refine ⟨st', ?_, hfin⟩
        rw [submitLoop]
        dsimp only
        rw [if_pos hcond, hw2]
        dsimp only
        exact hrec
    · obtain ⟨st', hrec, hfin⟩ := ih _ hfs1 hrs1
      refine ⟨st', ?_, hfin⟩
      rw [submitLoop]
      dsimp only
      rw [if_neg hcond]
      exact hrec

/-- When every outstanding future succeeded, the drain loop cannot
abort. -/
theorem drainLoop_allOk_none (oracle : Nat → Nat) :
    ∀ (fuel : Nat) (st : RayAcc ι μ ω ε α β γ δ),
      (∀ f ∈ st.futures, ∃ b, f.result = Except.ok b) →
      ∃ st', drainLoop oracle fuel st = (st', none) := by
  intro fuel
  induction fuel with
  | zero => intro st _; exact ⟨st, rfl⟩
  | succ n ih =>
    intro st hfs
    by_cases hemp : st.futures.isEmpty
    · exact ⟨st, by rw [drainLoop, if_pos hemp]⟩
    · have hne : st.futures ≠ [] := fun h0 => hemp (by simp [h0])
      obtain ⟨f, rest1, hperm, _, hcase⟩ := waitOne_spec oracle st hne
      rcases hcase with ⟨e, hres, hw2⟩ | ⟨b, hres, hw2⟩
      · exfalso
        obtain ⟨b0, hb0⟩ := hfs f (hperm.mem_iff.mpr (List.mem_cons_self f rest1))
        rw [hres] at hb0
        exact Except.noConfusion hb0
      · obtain ⟨st', hrec⟩ := ih
          ({ popState st rest1 with acc := Batches.merge st.acc b })
          (fun g hg => hfs g (hperm.mem_iff.mpr (List.mem_cons_of_mem f hg)))
        refine ⟨st', ?_⟩
        rw [drainLoop, if_neg hemp, hw2]
        exact hrec

/-- A remote chunk worker succeeds whenever every identifier of its
slice refines successfully, and its contribution is exactly the
per-identifier total of the slice. -/
theorem ipod_worker_remote_allOk [DecidableEq ι] [DecidableEq σ]
    (ctx : WorkerCtx ι κ σ μ ω ε α β γ δ) (ids : List ι) (rng : Nat × Nat)
    (hok : ∀ id ∈ (ids.drop rng.1).take (rng.2 - rng.1),
      ∃ b, workerStep ctx id = .ok b) :
    ∃ b, (ipod_worker_remote ctx ids rng).result = Except.ok b ∧
      b.mSet = idsTotal ctx ((ids.drop rng.1).take (rng.2 - rng.1)) := by
  obtain ⟨b, hwl, hbm⟩ :=
    workerLoop_allOk ctx ((ids.drop rng.1).take (rng.2 - rng.1))
      Batches.empty hok
  refine ⟨b, ?_, ?_⟩
  · simp only [ipod_worker_remote, ipod_worker, hwl]
  · rw [hbm, Batches.mSet_empty, zero_add]

/-- The distributed dispatch on ranges whose workers all succeed:
no abort, the four totals collect exactly the per-range contributions,
and the dispatched record is the ordered list of slices. -/
theorem rayDispatch_allOk [DecidableEq ι] [DecidableEq σ]
    (oracle : Nat → Nat) (w : Nat) (ctx : WorkerCtx ι κ σ μ ω ε α β γ δ)
    (ids : List ι) (ranges : List (Nat × Nat))
    (hwr : ∀ rng ∈ ranges,
      ∃ b, (ipod_worker_remote ctx ids rng).result = Except.ok b) :
    ∃ b, (rayDispatch oracle w ctx ids ranges).result = Except.ok b ∧
      b.mSet = (ranges.map
        (fun rng => (ipod_worker_remote ctx ids rng).okBatch.mSet)).sum ∧
      (rayDispatch oracle w ctx ids ranges).dispatched =
        ranges.map (fun rng => (ids.drop rng.1).take (rng.2 - rng.1)) := by
  obtain ⟨st', hsub, hfo⟩ := submitLoop_allOk_none oracle w ctx ids ranges
    RayAcc.init (fun f hf => absurd hf (List.not_mem_nil f)) hwr
  obtain ⟨hcons, hdisp, _, _⟩ :=
    submitLoop_none_spec oracle w ctx ids ranges RayAcc.init st' hsub
  obtain ⟨st2, hdr⟩ := drainLoop_allOk_none oracle st'.futures.length st' hfo
  obtain ⟨_, hacc2, _, hdisp2⟩ :=
    drainLoop_none_spec oracle st'.futures.length st' st2 le_rfl hdr
  have hrd : rayDispatch oracle w ctx ids ranges =
      ⟨Except.ok st2.acc, st2.dispatched, st2.refineCalls, st2.sizeTrace⟩ := by
    unfold rayDispatch
    rw [hsub]
    dsimp only
    rw [hdr]
  refine ⟨st2.acc, by rw [hrd], ?_, ?_⟩
  · rw [hacc2, hcons]
    simp [RayAcc.init, futSum_nil, Batches.mSet_empty]
  · rw [hrd]
    dsimp only
    rw [hdisp2, hdisp]
    simp [RayAcc.init]

/-- The distributed dispatch aborts whenever some submitted worker
raised: a failed future is never merged on an error-free path, and the
drain cannot finish while it is outstanding. -/
theorem rayDispatch_err [DecidableEq ι] [DecidableEq σ]
    (oracle : Nat → Nat) (w : Nat) (ctx : WorkerCtx ι κ σ μ ω ε α β γ δ)
    (ids : List ι) (ranges : List (Nat × Nat)) (rng0 : Nat × Nat)
    (h0 : rng0 ∈ ranges) (e : ε)
    (he : (ipod_worker_remote ctx ids rng0).result = Except.error e) :
    ∃ e2, (rayDispatch oracle w ctx ids ranges).result = Except.error e2 := by
  rcases hsub : submitLoop oracle w ctx ids ranges RayAcc.init with ⟨st', r⟩
  cases r with
  | some e2 => exact ⟨e2, by unfold rayDispatch; rw [hsub]⟩
  | none =>
    obtain ⟨_, _, herrstay, _⟩ :=
      submitLoop_none_spec oracle w ctx ids ranges RayAcc.init st' hsub
    have hmem : ipod_worker_remote ctx ids rng0 ∈ st'.futures :=
      herrstay _ e he (Or.inr ⟨rng0, h0, rfl⟩)
    rcases hdr : drainLoop oracle st'.futures.length st' with ⟨st2, r2⟩
    cases r2 with
    | some e2 =>
      exact ⟨e2, by unfold rayDispatch; rw [hsub]; dsimp only; rw [hdr]⟩
    | none =>
      exfalso
      obtain ⟨_, _, hallok, _⟩ :=
        drainLoop_none_spec oracle st'.futures.length st' st2 le_rfl hdr
      obtain ⟨b, hb⟩ := hallok _ hmem
      rw [he] at hb
      exact Except.noConfusion hb

/-- The sequential fallback on inputs whose identifiers all refine
successfully: no abort, the four totals collect the per-identifier
total, and the dispatched record is exactly the `_iterate_chunks`
partition by the nominal chunk size. -/
theorem seqRun_allOk [DecidableEq ι] [DecidableEq σ]
    (ctx : WorkerCtx ι κ σ μ ω ε α β γ δ) {c : Nat} (hc : 1 ≤ c)
    (hok : ∀ id ∈ ctx.orbits.map ctx.orbitIdOf,
      ∃ b, workerStep ctx id = .ok b) :
    ∃ b, (seqRun ctx c).result = Except.ok b ∧
      b.mSet = idsTotal ctx (ctx.orbits.map ctx.orbitIdOf) ∧
      (seqRun ctx c).dispatched =
        _iterate_chunks c (ctx.orbits.map ctx.orbitIdOf) := by
  obtain ⟨st', hrec, hm, hd, _, _⟩ := seqLoopAux_allOk ctx hc
    (ctx.orbits.map ctx.orbitIdOf).length (ctx.orbits.map ctx.orbitIdOf)
    RayAcc.init le_rfl hok
  have hsr : seqRun ctx c =
      ⟨Except.ok st'.acc, st'.dispatched, st'.refineCalls, st'.sizeTrace⟩ := by
    unfold seqRun
    dsimp only
    rw [hrec]
  refine ⟨st'.acc, by rw [hsr], ?_, ?_⟩
  · rw [hm]
    simp [RayAcc.init, Batches.mSet_empty]
  · rw [hsr]
    dsimp only
    rw [hd]
    simp only [RayAcc.init, List.nil_append, _iterate_chunks, if_neg (by omega : ¬ c = 0)]

/-- The sequential fallback aborts with exactly the raised error when
the input has a first failing identifier. -/
theorem seqRun_err [DecidableEq ι] [DecidableEq σ]
    (ctx : WorkerCtx ι κ σ μ ω ε α β γ δ) {c : Nat} (hc : 1 ≤ c)
    (pre post : List ι) (bad : ι) (e : ε)
    (hids : ctx.orbits.map ctx.orbitIdOf = pre ++ bad :: post)
    (hpre : ∀ id ∈ pre, ∃ b, workerStep ctx id = .ok b)
    (hbad : workerStep ctx bad = .error e) :
    (seqRun ctx c).result = Except.error e := by
  obtain ⟨st', hrec⟩ := seqLoopAux_firstErr ctx hc e bad hbad
    (pre ++ bad :: post).length pre post RayAcc.init le_rfl hpre
  unfold seqRun
  dsimp only
  rw [hids, hrec]

/-- Every refinement invocation the worker records carries exactly the
observation argument `orbitObservationsFor` computes for its
identifier. -/
theorem workerLoop_calls_spec [DecidableEq ι] [DecidableEq σ]
    (ctx : WorkerCtx ι κ σ μ ω ε α β γ δ) :
    ∀ (ids : List ι) (acc : Batches α β γ δ),
      ∀ p ∈ (workerLoop ctx ids acc).2.1,
        p.2 = orbitObservationsFor ctx p.1 := by
  intro ids
  induction ids with
  | nil => intro acc p hp; exact absurd hp (List.not_mem_nil p)
  | cons id rest ih =>
    intro acc p hp
    rcases hstep : ctx.ipodFn (selectOrbit ctx id) (orbitObservationsFor ctx id)
      with e | b
    · simp only [workerLoop, hstep] at hp
      rcases List.mem_singleton.mp hp with rfl
      rfl
    · simp only [workerLoop, hstep] at hp
      rcases List.mem_cons.mp hp with rfl | hp2
      · rfl
      · exact ih (acc.merge b) p hp2

/-- A concrete instantiation of the worker context used to exercise the
embedding: five candidate orbits with identifiers 0..4, no membership
or observation table, and a refinement routine that succeeds on every
identifier, producing one row per collection. -/
def ctxOk5 : WorkerCtx Nat (Nat × Nat) Nat Nat Nat Nat Nat Nat Nat Nat where
  ipodFn := fun sel _ =>
    match sel with
    | [] => .error 99
    | (i, _) :: _ => .ok ⟨[i], [i + 100], [i + 200], [i + 300]⟩
  orbitIdOf := Prod.fst
  orbits := [(0, 0), (1, 0), (2, 0), (3, 0), (4, 0)]
  orbit_members := none
  observations := none
  obsIdOf := fun o => o
  obsKey := fun o => (o, 0, 0)
  observerOf := fun o => o
  observerKey := fun o => (o, 0, 0)

/-- A concrete worker context whose refinement routine raises (error 7)
for identifier 1 and succeeds elsewhere; three candidate orbits. -/
def ctxFail3 : WorkerCtx Nat (Nat × Nat) Nat Nat Nat Nat Nat Nat Nat Nat where
  ipodFn := fun sel _ =>
    match sel with
    | [] => .error 99
    | (i, _) :: _ =>
      if i = 1 then .error 7 else .ok ⟨[i], [i + 100], [i + 200], [i + 300]⟩
  orbitIdOf := Prod.fst
  orbits := [(0, 0), (1, 0), (2, 0)]
  orbit_members := none
  observations := none
  obsIdOf := fun o => o
  obsKey := fun o => (o, 0, 0)
  observerOf := fun o => o
  observerKey := fun o => (o, 0, 0)

/-- A concrete worker context with an empty candidate-orbit table. -/
def ctxEmpty : WorkerCtx Nat (Nat × Nat) Nat Nat Nat Nat Nat Nat Nat Nat where
  ipodFn := fun sel _ =>
    match sel with
    | [] => .error 99
    | (i, _) :: _ => .ok ⟨[i], [i + 100], [i + 200], [i + 300]⟩
  orbitIdOf := Prod.fst
  orbits := []
  orbit_members := none
  observations := none
  obsIdOf := fun o => o
  obsKey := fun o => (o, 0, 0)
  observerOf := fun o => o
  observerKey := fun o => (o, 0, 0)

/-- A concrete worker context whose refinement routine is the
spec-modelled `ipod` (hard lookup error 99 on an empty candidate
selection); one candidate orbit with identifier 0, and a membership
table present while the observation table is absent. -/
def ctxModelled : WorkerCtx Nat (Nat × Nat) Nat Nat Nat Nat Nat Nat Nat Nat where
  ipodFn := ipodModelled 99 (fun sel _ => ⟨sel.map Prod.fst, [], [], []⟩)
  orbitIdOf := Prod.fst
  orbits := [(0, 0)]
  orbit_members := some [(0, 10)]
  observations := none
  obsIdOf := fun o => o
  obsKey := fun o => (o, 0, 0)
  observerOf := fun o => o
  observerKey := fun o => (o, 0, 0)

/-- The run on an empty orbit table returns at once: four empty
collections, nothing dispatched, no refinement invocation, empty size
trace (lines 273-287 of src/ipod/main.py). -/
theorem run_empty [DecidableEq ι] [DecidableEq σ]
    (ctx : WorkerCtx ι κ σ μ ω ε α β γ δ) (h : ctx.orbits = [])
    (use_ray : Bool) (oracle : Nat → Nat) (chunk_size max_processes : Nat) :
    iterative_precovery_and_differential_correction use_ray oracle ctx
        chunk_size max_processes =
      ⟨Except.ok (Batches.mk [] [] [] []), [], 0, []⟩ := by
  unfold iterative_precovery_and_differential_correction
  rw [h]
  rfl

/-- The `_iterate_chunks` partition of an empty sequence is empty. -/
theorem _iterate_chunks_nil (c : Nat) :
    _iterate_chunks c ([] : List τ) = [] := by
  unfold _iterate_chunks
  split
  · rfl
  · rfl

/-- C5: if the input orbit collection is empty, the top-level entry
point returns the four empty (non-null) result collections (lines
273-287 of src/ipod/main.py) without dispatching any chunk task
(`dispatched = []`) and without invoking the refinement routine
(`refineCalls = 0`), on either path. -/
theorem claim_C5 [DecidableEq ι] [DecidableEq σ]
    (ctx : WorkerCtx ι κ σ μ ω ε α β γ δ) (h : ctx.orbits = [])
    (use_ray : Bool) (oracle : Nat → Nat) (chunk_size max_processes : Nat) :
    iterative_precovery_and_differential_correction use_ray oracle ctx
        chunk_size max_processes =
      ⟨Except.ok (Batches.mk [] [] [] []), [], 0, []⟩ :=
  run_empty ctx h use_ray oracle chunk_size max_processes

/-- C5 witness: the theorem applied to the concrete empty context. -/
theorem claim_C5_witness :
    iterative_precovery_and_differential_correction true (fun _ => 0)
        ctxEmpty 10 1 =
      ⟨Except.ok (Batches.mk [] [] [] []), [], 0, []⟩ :=
  claim_C5 ctxEmpty rfl true (fun _ => 0) 10 1

/-- C6: whenever the membership table is supplied without the
observation table or vice versa, every refinement invocation a chunk
worker performs receives no observations (`None`) — never a partial or
mismatched set (lines 67-97 of src/ipod/main.py select the observation
branch only when both tables are present). -/
theorem claim_C6 [DecidableEq ι] [DecidableEq σ]
    (ctx : WorkerCtx ι κ σ μ ω ε α β γ δ)
    (h : ctx.orbit_members = none ∨ ctx.observations = none)
    (databaseIsPath : Bool) (orbit_ids : List ι) :
    ∀ p ∈ (ipod_worker databaseIsPath ctx orbit_ids).calls, p.2 = none := by
  have hobs : ∀ id, orbitObservationsFor ctx id = none := by
    intro id
    rcases h with h | h
    · cases ho : ctx.observations <;>
        simp [orbitObservationsFor, h, ho]
    · cases hm : ctx.orbit_members <;>
        simp [orbitObservationsFor, h, hm]
  intro p hp
  have := workerLoop_calls_spec ctx orbit_ids Batches.empty p hp
  rw [this, hobs]

/-- C6 witness: with a membership table present but no observation
table, every refinement call of a one-identifier chunk receives no
observations. -/
theorem claim_C6_witness :
    ((ipod_worker true ctxModelled [0]).calls.all
      (fun p => decide (p.2 = none))) = true := by
  have h := claim_C6 ctxModelled (Or.inr rfl) true [0]
  rw [List.all_eq_true]
  intro p hp
  exact decide_eq_true (h p hp)

/-- C2 counterexample: the claim that each chunk task closes its index
handle exactly once on every exit path fails on the code.  A remote
chunk whose refinement raises opens the index once and never closes it
(`database.frames.close()` at line 201 is only reached when
`ipod_worker` returns normally; there is no try/finally), and the
in-process `ipod_worker`, when handed a directory path on the
sequential fallback, opens the index and contains no close call even
on success. -/
theorem claim_C2_counterexample :
    ((ipod_worker_remote ctxFail3 [0, 1, 2] (0, 3)).opens = 1 ∧
     (ipod_worker_remote ctxFail3 [0, 1, 2] (0, 3)).closes = 0) ∧
    ((ipod_worker true ctxOk5 [0, 1]).opens = 1 ∧
     (ipod_worker true ctxOk5 [0, 1]).closes = 0) := by
  decide

/-- C2 (amended): each remote chunk task opens exactly one read-only
index handle, and closes it exactly once if the chunk body returned
normally and zero times if it raised; the in-process worker opens one
handle when given a directory path (none when given an open instance)
and never executes a close on any path. -/
theorem claim_C2 [DecidableEq ι] [DecidableEq σ]
    (ctx : WorkerCtx ι κ σ μ ω ε α β γ δ) (orbit_ids : List ι)
    (indices : Nat × Nat) (databaseIsPath : Bool) :
    (ipod_worker_remote ctx orbit_ids indices).opens = 1 ∧
    (ipod_worker_remote ctx orbit_ids indices).closes =
      (match (ipod_worker_remote ctx orbit_ids indices).result with
       | .ok _ => 1
       | .error _ => 0) ∧
    (ipod_worker databaseIsPath ctx orbit_ids).opens =
      (if databaseIsPath then 1 else 0) ∧
    (ipod_worker databaseIsPath ctx orbit_ids).closes = 0 := by
  refine ⟨rfl, ?_, rfl, rfl⟩
  unfold ipod_worker_remote ipod_worker
  dsimp only
  rcases (workerLoop ctx
    ((orbit_ids.drop indices.1).take (indices.2 - indices.1))
    Batches.empty).1 with e | b <;> rfl

/-- C9: an identifier with no matching row in the candidate-orbit table
is fatal to its chunk — the worker returns no result batch.  The
refinement routine is the spec-modelled `ipod` (the selection
`orbits.select("orbit_id", orbit_id)` of line 65 returns an empty table
for such an identifier, and per the spec the routine treats an absent
candidate row as a hard error). -/
theorem claim_C9 [DecidableEq ι] [DecidableEq σ]
    (ctx : WorkerCtx ι κ σ μ ω ε α β γ δ) (lookupErr : ε)
    (refineOk : List κ → Option (ODObs μ ω) → Batches α β γ δ)
    (hfn : ctx.ipodFn = ipodModelled lookupErr refineOk)
    (databaseIsPath : Bool) (chunk : List ι) (bad : ι) (hmem : bad ∈ chunk)
    (hnone : ∀ r ∈ ctx.orbits, ctx.orbitIdOf r ≠ bad) :
    ∃ e, (ipod_worker databaseIsPath ctx chunk).result = Except.error e := by
  have hsel : selectOrbit ctx bad = [] := by
    rw [selectOrbit, List.filter_eq_nil_iff]
    intro r hr
    simp only [beq_iff_eq]
    exact hnone r hr
  have hbadstep : ∀ obs, ctx.ipodFn (selectOrbit ctx bad) obs =
      Except.error lookupErr := by
    intro obs
    rw [hfn, hsel]
    rfl
  suffices hloop : ∀ (ids : List ι) (acc : Batches α β γ δ), bad ∈ ids →
      ∃ e, (workerLoop ctx ids acc).1 = Except.error e by
    obtain ⟨e, he⟩ := hloop chunk Batches.empty hmem
    exact ⟨e, by simp only [ipod_worker]; exact he⟩
  intro ids
  induction ids with
  | nil => intro acc hm; exact absurd hm (List.not_mem_nil bad)
  | cons id rest ih =>
    intro acc hm
    rcases hstep : ctx.ipodFn (selectOrbit ctx id) (orbitObservationsFor ctx id)
      with e | b
    · exact ⟨e, by simp only [workerLoop, hstep]⟩
    · rcases List.mem_cons.mp hm with rfl | hm2
      · exfalso
        rw [hbadstep] at hstep
        exact Except.noConfusion hstep
      · obtain ⟨e, he⟩ := ih (acc.merge b) hm2
        exact ⟨e, by simp only [workerLoop, hstep]; exact he⟩

/-- C9 witness: identifier 5 has no row in the one-orbit table of the
modelled context, and a chunk containing it returns no result batch. -/
theorem claim_C9_witness :
    ∃ e, (ipod_worker true ctxModelled [0, 5]).result = Except.error e :=
  claim_C9 ctxModelled 99 (fun sel _ => ⟨sel.map Prod.fst, [], [], []⟩) rfl
    true [0, 5] 5 (by decide) (by decide)

/-- C1 counterexample: with N = 5 identifiers, W = 10, C = 10, the
effective chunk size min(ceil(5/10), 10) = 1 would partition the
sequence into five singleton chunks, but the sequential fallback path
dispatches one chunk of five identifiers: the effective-size
computation of line 326 happens only on the distributed branch, so the
claim that both paths use it is false. -/
theorem claim_C1_counterexample :
    (iterative_precovery_and_differential_correction false (fun _ => 0)
        ctxOk5 10 10).dispatched ≠
      _iterate_chunks
        (effective_chunk_size (ctxOk5.orbits.map ctxOk5.orbitIdOf).length 10 10)
        (ctxOk5.orbits.map ctxOk5.orbitIdOf) := by
  decide

/-- C1 (amended): on a run in which every refinement succeeds, the
distributed path partitions the identifier sequence by the effective
chunk size min(ceil(N/W), C) while the sequential fallback path
partitions it by the nominal chunk size C unmodified. -/
theorem claim_C1 [DecidableEq ι] [DecidableEq σ]
    (ctx : WorkerCtx ι κ σ μ ω ε α β γ δ) (oracle : Nat → Nat) (c w : Nat)
    (hc : 1 ≤ c) (hw : 1 ≤ w)
    (hok : ∀ id ∈ ctx.orbits.map ctx.orbitIdOf,
      ∃ b, workerStep ctx id = .ok b) :
    (iterative_precovery_and_differential_correction true oracle ctx
        c w).dispatched =
      _iterate_chunks
        (effective_chunk_size (ctx.orbits.map ctx.orbitIdOf).length w c)
        (ctx.orbits.map ctx.orbitIdOf) ∧
    (iterative_precovery_and_differential_correction false oracle ctx
        c w).dispatched =
      _iterate_chunks c (ctx.orbits.map ctx.orbitIdOf) := by
  by_cases hz : ctx.orbits.length = 0
  · have hnil : ctx.orbits = [] := List.length_eq_zero.mp hz
    constructor
    · rw [run_empty ctx hnil true oracle c w, hnil]
      simp [_iterate_chunks_nil]
    · rw [run_empty ctx hnil false oracle c w, hnil]
      simp [_iterate_chunks_nil]
  · have hn : 1 ≤ (ctx.orbits.map ctx.orbitIdOf).length := by
      rw [List.length_map]
      omega
    have hcc : 1 ≤ effective_chunk_size
        (ctx.orbits.map ctx.orbitIdOf).length w c := by
      unfold effective_chunk_size
      have h1 : 1 ≤ ((ctx.orbits.map ctx.orbitIdOf).length + w - 1) / w := by
        rw [Nat.le_div_iff_mul_le (by omega)]
        omega
      exact le_min h1 hc
    have htop : iterative_precovery_and_differential_correction true oracle
        ctx c w = rayRun oracle ctx c w := by
      unfold iterative_precovery_and_differential_correction
      rw [if_neg hz]
      rfl
    have htops : iterative_precovery_and_differential_correction false oracle
        ctx c w = seqRun ctx c := by
      unfold iterative_precovery_and_differential_correction
      rw [if_neg hz]
      rfl
    constructor
    · rw [htop]
      have hwr : ∀ rng ∈ _iterate_chunk_indices
          (ctx.orbits.map ctx.orbitIdOf).length
          (effective_chunk_size (ctx.orbits.map ctx.orbitIdOf).length w c),
          ∃ b, (ipod_worker_remote ctx (ctx.orbits.map ctx.orbitIdOf)
            rng).result = Except.ok b := by
        intro rng _
        obtain ⟨b, hb, _⟩ := ipod_worker_remote_allOk ctx
          (ctx.orbits.map ctx.orbitIdOf) rng
          (fun id hid => hok id
            (List.drop_subset _ _ (List.take_subset _ _ hid)))
        exact ⟨b, hb⟩
      obtain ⟨b, _, _, hdisp⟩ := rayDispatch_allOk oracle w ctx
        (ctx.orbits.map ctx.orbitIdOf) _ hwr
      unfold rayRun
      rw [hdisp]
      exact _iterate_chunk_indices_map_slice hcc _
    · rw [htops]
      obtain ⟨b, _, _, hdisp⟩ := seqRun_allOk ctx hc hok
      exact hdisp

/-- C1 witness for the amended theorem, at the scenario of spec
section 8: N = 5, W = 2, C = 2. -/
theorem claim_C1_witness :
    (iterative_precovery_and_differential_correction true (fun _ => 0)
        ctxOk5 2 2).dispatched =
      _iterate_chunks
        (effective_chunk_size (ctxOk5.orbits.map ctxOk5.orbitIdOf).length 2 2)
        (ctxOk5.orbits.map ctxOk5.orbitIdOf) ∧
    (iterative_precovery_and_differential_correction false (fun _ => 0)
        ctxOk5 2 2).dispatched =
      _iterate_chunks 2 (ctxOk5.orbits.map ctxOk5.orbitIdOf) :=
  claim_C1 ctxOk5 (fun _ => 0) 2 2 (by decide) (by decide)
    (by
      intro id hid
      fin_cases hid <;> exact ⟨_, rfl⟩)

/-- C4: on the distributed path, every outstanding-set size recorded at
any point of the submission and drain loops is at most
⌈1.5·W⌉ = (3W+1)/2: the dispatcher admits a new task only after
draining one completion whenever the outstanding count has reached the
threshold `max_processes * 1.5`. -/
theorem claim_C4 [DecidableEq ι] [DecidableEq σ]
    (ctx : WorkerCtx ι κ σ μ ω ε α β γ δ) (oracle : Nat → Nat) (c w : Nat)
    (hw : 1 ≤ w) :
    ∀ x ∈ (iterative_precovery_and_differential_correction true oracle ctx
        c w).sizeTrace,
      x ≤ (3 * w + 1) / 2 := by
  by_cases hz : ctx.orbits.length = 0
  · have hnil : ctx.orbits = [] := List.length_eq_zero.mp hz
    rw [run_empty ctx hnil true oracle c w]
    intro x hx
    exact absurd hx (List.not_mem_nil x)
  · have htop : iterative_precovery_and_differential_correction true oracle
        ctx c w = rayRun oracle ctx c w := by
      unfold iterative_precovery_and_differential_correction
      rw [if_neg hz]
      rfl
    rw [htop]
    unfold rayRun rayDispatch
    rcases hsub : submitLoop oracle w ctx (ctx.orbits.map ctx.orbitIdOf)
      (_iterate_chunk_indices (ctx.orbits.map ctx.orbitIdOf).length
        (effective_chunk_size (ctx.orbits.map ctx.orbitIdOf).length w c))
      RayAcc.init with ⟨st', r⟩
    obtain ⟨htr, hinv⟩ := submitLoop_trace_bound oracle hw ctx
      (ctx.orbits.map ctx.orbitIdOf) _ RayAcc.init st' r hsub
      (fun x hx => absurd hx (List.not_mem_nil x)) (by simp [RayAcc.init])
    cases r with
    | some e =>
      dsimp only
      intro x hx
      exact htr x hx
    | none =>
      dsimp only
      have hlen : st'.futures.length ≤ (3 * w + 1) / 2 := by
        have := hinv rfl
        omega
      rcases hdr : drainLoop oracle st'.futures.length st' with ⟨st2, r2⟩
      have htr2 := drainLoop_trace_bound oracle st'.futures.length st' st2 r2
        hdr htr hlen
      cases r2 with
      | some e =>
        dsimp only
        intro x hx
        exact htr2 x hx
      | none =>
        dsimp only
        intro x hx
        exact htr2 x hx

/-- C4 witness at N = 5, W = 2, C = 2: every recorded outstanding count
is at most ⌈1.5·2⌉ = 3. -/
theorem claim_C4_witness :
    ((iterative_precovery_and_differential_correction true (fun _ => 0)
        ctxOk5 2 2).sizeTrace.all
      (fun x => decide (x ≤ (3 * 2 + 1) / 2))) = true := by
  have h := claim_C4 ctxOk5 (fun _ => 0) 2 2 (by decide)
  rw [List.all_eq_true]
  intro x hx
  exact decide_eq_true (h x hx)

/-- If the distributed dispatch completed without error, every
submitted chunk worker must have succeeded: a failed future can only
leave the outstanding set by aborting the run. -/
theorem rayDispatch_ok_allOk [DecidableEq ι] [DecidableEq σ]
    (oracle : Nat → Nat) (w : Nat) (ctx : WorkerCtx ι κ σ μ ω ε α β γ δ)
    (ids : List ι) (ranges : List (Nat × Nat)) (b : Batches α β γ δ)
    (hres : (rayDispatch oracle w ctx ids ranges).result = Except.ok b) :
    ∀ rng ∈ ranges,
      ∃ b0, (ipod_worker_remote ctx ids rng).result = Except.ok b0 := by
  rcases hsub : submitLoop oracle w ctx ids ranges RayAcc.init with ⟨st', r⟩
  cases r with
  | some e =>
    exfalso
    have herr : (rayDispatch oracle w ctx ids ranges).result =
        Except.error e := by
      unfold rayDispatch
      rw [hsub]
    exact Except.noConfusion (herr.symm.trans hres)
  | none =>
    obtain ⟨_, _, herrstay, _⟩ :=
      submitLoop_none_spec oracle w ctx ids ranges RayAcc.init st' hsub
    rcases hdr : drainLoop oracle st'.futures.length st' with ⟨st2, r2⟩
    cases r2 with
    | some e =>
      exfalso
      have herr : (rayDispatch oracle w ctx ids ranges).result =
          Except.error e := by
        unfold rayDispatch
        rw [hsub]
        dsimp only
        rw [hdr]
      exact Except.noConfusion (herr.symm.trans hres)
    | none =>
      obtain ⟨_, _, hallok, _⟩ :=
        drainLoop_none_spec oracle st'.futures.length st' st2 le_rfl hdr
      intro rng hrng
      rcases hr : (ipod_worker_remote ctx ids rng).result with e | b0
      · exfalso
        have hmem := herrstay _ e hr (Or.inr ⟨rng, hrng, rfl⟩)
        obtain ⟨b1, hb1⟩ := hallok _ hmem
        rw [hr] at hb1
        exact Except.noConfusion hb1
      · exact ⟨b0, rfl⟩

/-- C3: if the refinement routine raises for an identifier of a chunk,
the worker logs the error with the offending identifier, re-raises it
without processing any later identifier (the call trace stops at the
offending one), and returns no result batch; on the sequential path the
same error aborts the whole run, and on the distributed path the run
aborts with an error as well. -/
theorem claim_C3 [DecidableEq ι] [DecidableEq σ]
    (ctx : WorkerCtx ι κ σ μ ω ε α β γ δ) (oracle : Nat → Nat) (c w : Nat)
    (hc : 1 ≤ c) (hw : 1 ≤ w) (databaseIsPath : Bool)
    (pre post : List ι) (bad : ι) (e : ε)
    (hpre : ∀ id ∈ pre, ∃ b, workerStep ctx id = .ok b)
    (hbad : workerStep ctx bad = .error e)
    (hids : ctx.orbits.map ctx.orbitIdOf = pre ++ bad :: post) :
    (ipod_worker databaseIsPath ctx (pre ++ bad :: post)).result =
      Except.error e ∧
    (ipod_worker databaseIsPath ctx (pre ++ bad :: post)).calls.map Prod.fst =
      pre ++ [bad] ∧
    (ipod_worker databaseIsPath ctx (pre ++ bad :: post)).errLog =
      [(bad, e)] ∧
    (iterative_precovery_and_differential_correction false oracle ctx
        c w).result = Except.error e ∧
    ∃ e2, (iterative_precovery_and_differential_correction true oracle ctx
        c w).result = Except.error e2 := by
  have hwl := workerLoop_firstErr ctx pre bad post e hpre hbad Batches.empty
  have hz : ¬ ctx.orbits.length = 0 := by
    intro h0
    have hl := congrArg List.length hids
    simp only [List.length_map, List.length_append, List.length_cons] at hl
    omega
  refine ⟨?_, ?_, ?_, ?_, ?_⟩
  · simp only [ipod_worker, hwl]
  · simp only [ipod_worker, hwl, List.map_map]
    exact List.map_id _
  · simp only [ipod_worker, hwl]
  · have htops : iterative_precovery_and_differential_correction false oracle
        ctx c w = seqRun ctx c := by
      unfold iterative_precovery_and_differential_correction
      rw [if_neg hz]
      rfl
    rw [htops]
    exact seqRun_err ctx hc pre post bad e hids hpre hbad
  · have htop : iterative_precovery_and_differential_correction true oracle
        ctx c w = rayDispatch oracle w ctx (ctx.orbits.map ctx.orbitIdOf)
        (_iterate_chunk_indices (ctx.orbits.map ctx.orbitIdOf).length
          (effective_chunk_size (ctx.orbits.map ctx.orbitIdOf).length w c)) := by
      unfold iterative_precovery_and_differential_correction
      rw [if_neg hz]
      rfl
    rw [htop]
    rcases hray : (rayDispatch oracle w ctx (ctx.orbits.map ctx.orbitIdOf)
      (_iterate_chunk_indices (ctx.orbits.map ctx.orbitIdOf).length
        (effective_chunk_size (ctx.orbits.map ctx.orbitIdOf).length w
          c))).result with e2 | b
    · exact ⟨e2, rfl⟩
    · exfalso
      have hcc : 1 ≤ effective_chunk_size
          (ctx.orbits.map ctx.orbitIdOf).length w c := by
        unfold effective_chunk_size
        have hn : 1 ≤ (ctx.orbits.map ctx.orbitIdOf).length := by
          rw [List.length_map]
          omega
        have h1 : 1 ≤ ((ctx.orbits.map ctx.orbitIdOf).length + w - 1) / w := by
          rw [Nat.le_div_iff_mul_le (by omega)]
          omega
        exact le_min h1 hc
      have hallr := rayDispatch_ok_allOk oracle w ctx
        (ctx.orbits.map ctx.orbitIdOf) _ b hray
      have hbadmem : bad ∈ ctx.orbits.map ctx.orbitIdOf := by
        rw [hids]
        exact List.mem_append_right pre (List.mem_cons_self bad post)
      have hcover : (((_iterate_chunk_indices
          (ctx.orbits.map ctx.orbitIdOf).length
          (effective_chunk_size (ctx.orbits.map ctx.orbitIdOf).length w
            c)).map
          (fun rng => ((ctx.orbits.map ctx.orbitIdOf).drop rng.1).take
            (rng.2 - rng.1))).flatten) = ctx.orbits.map ctx.orbitIdOf := by
        rw [_iterate_chunk_indices_map_slice hcc]
        exact _iterate_chunks_join hcc _
      rw [← hcover] at hbadmem
      obtain ⟨l, hl, hbadin⟩ := List.mem_flatten.mp hbadmem
      obtain ⟨rng, hrng, hle⟩ := List.mem_map.mp hl
      obtain ⟨b0, hb0⟩ := hallr rng hrng
      rcases hrec : workerLoop ctx
        (((ctx.orbits.map ctx.orbitIdOf).drop rng.1).take (rng.2 - rng.1))
        Batches.empty with ⟨r1, r2, r3⟩
      have hr1 : r1 = Except.ok b0 := by
        simp only [ipod_worker_remote, ipod_worker, hrec] at hb0
        exact hb0
      obtain ⟨bb, hbb⟩ := workerLoop_ok_all ctx _ Batches.empty b0 r2 r3
        (by rw [hrec, hr1]) bad (by rw [hle]; exact hbadin)
      rw [hbad] at hbb
      exact Except.noConfusion hbb

/-- C3 witness: identifier 1 of the concrete failing context raises
error 7; its chunk logs and re-raises it after the successful
identifier 0 and both run paths abort. -/
theorem claim_C3_witness :
    (ipod_worker true ctxFail3 ([0] ++ 1 :: [2])).result =
      Except.error 7 ∧
    (ipod_worker true ctxFail3 ([0] ++ 1 :: [2])).calls.map Prod.fst =
      [0] ++ [1] ∧
    (ipod_worker true ctxFail3 ([0] ++ 1 :: [2])).errLog = [(1, 7)] ∧
    (iterative_precovery_and_differential_correction false (fun _ => 0)
        ctxFail3 2 1).result = Except.error 7 ∧
    ∃ e2, (iterative_precovery_and_differential_correction true (fun _ => 0)
        ctxFail3 2 1).result = Except.error e2 :=
  claim_C3 ctxFail3 (fun _ => 0) 2 1 (by decide) (by decide) true
    [0] [2] 1 7
    (by
      intro id hid
      fin_cases hid
      exact ⟨_, rfl⟩)
    rfl rfl

/-- C7: on any input whose refinement calls all succeed, the
distributed path — under every completion order the scheduling oracle
can produce — and the sequential fallback path return the same four
result collections as unordered multisets per collection: both equal
the per-identifier total, so merging chunk results in any permutation
of completion order yields identical final running totals. -/
theorem claim_C7 [DecidableEq ι] [DecidableEq σ]
    (ctx : WorkerCtx ι κ σ μ ω ε α β γ δ) (oracle : Nat → Nat) (c w : Nat)
    (hc : 1 ≤ c) (hw : 1 ≤ w)
    (hok : ∀ id ∈ ctx.orbits.map ctx.orbitIdOf,
      ∃ b, workerStep ctx id = .ok b) :
    ∃ bd bs,
      (iterative_precovery_and_differential_correction true oracle ctx
        c w).result = Except.ok bd ∧
      (iterative_precovery_and_differential_correction false oracle ctx
        c w).result = Except.ok bs ∧
      bd.mSet = bs.mSet := by
  by_cases hz : ctx.orbits.length = 0
  · have hnil : ctx.orbits = [] := List.length_eq_zero.mp hz
    refine ⟨Batches.mk [] [] [] [], Batches.mk [] [] [] [], ?_, ?_, rfl⟩
    · rw [run_empty ctx hnil true oracle c w]
    · rw [run_empty ctx hnil false oracle c w]
  · have hcc : 1 ≤ effective_chunk_size
        (ctx.orbits.map ctx.orbitIdOf).length w c := by
      unfold effective_chunk_size
      have hn : 1 ≤ (ctx.orbits.map ctx.orbitIdOf).length := by
        rw [List.length_map]
        omega
      have h1 : 1 ≤ ((ctx.orbits.map ctx.orbitIdOf).length + w - 1) / w := by
        rw [Nat.le_div_iff_mul_le (by omega)]
        omega
      exact le_min h1 hc
    have htop : iterative_precovery_and_differential_correction true oracle
        ctx c w = rayRun oracle ctx c w := by
      unfold iterative_precovery_and_differential_correction
      rw [if_neg hz]
      rfl
    have htops : iterative_precovery_and_differential_correction false oracle
        ctx c w = seqRun ctx c := by
      unfold iterative_precovery_and_differential_correction
      rw [if_neg hz]
      rfl
    have hsliceok : ∀ rng : Nat × Nat,
        ∀ id ∈ ((ctx.orbits.map ctx.orbitIdOf).drop
        rng.1).take (rng.2 - rng.1), ∃ b, workerStep ctx id = .ok b :=
      fun rng id hid =>
        hok id (List.drop_subset _ _ (List.take_subset _ _ hid))
    have hwr : ∀ rng ∈ _iterate_chunk_indices
        (ctx.orbits.map ctx.orbitIdOf).length
        (effective_chunk_size (ctx.orbits.map ctx.orbitIdOf).length w c),
        ∃ b, (ipod_worker_remote ctx (ctx.orbits.map ctx.orbitIdOf)
          rng).result = Except.ok b := by
      intro rng _
      obtain ⟨b, hb, _⟩ := ipod_worker_remote_allOk ctx
        (ctx.orbits.map ctx.orbitIdOf) rng (hsliceok rng)
      exact ⟨b, hb⟩
    obtain ⟨bd, hresd, hmd, _⟩ := rayDispatch_allOk oracle w ctx
      (ctx.orbits.map ctx.orbitIdOf) _ hwr
    obtain ⟨bs, hress, hms, _⟩ := seqRun_allOk ctx hc hok
    refine ⟨bd, bs, by rw [htop]; exact hresd, by rw [htops]; exact hress, ?_⟩
    rw [hmd, hms]
    have hterm : ∀ rng ∈ _iterate_chunk_indices
        (ctx.orbits.map ctx.orbitIdOf).length
        (effective_chunk_size (ctx.orbits.map ctx.orbitIdOf).length w c),
        (ipod_worker_remote ctx (ctx.orbits.map ctx.orbitIdOf)
          rng).okBatch.mSet =
        idsTotal ctx (((ctx.orbits.map ctx.orbitIdOf).drop rng.1).take
          (rng.2 - rng.1)) := by
      intro rng _
      obtain ⟨b0, hb0, hm0⟩ := ipod_worker_remote_allOk ctx
        (ctx.orbits.map ctx.orbitIdOf) rng (hsliceok rng)
      rw [WorkerOut.okBatch, hb0]
      exact hm0
    rw [List.map_congr_left hterm]
    have hcomp : ((_iterate_chunk_indices
        (ctx.orbits.map ctx.orbitIdOf).length
        (effective_chunk_size (ctx.orbits.map ctx.orbitIdOf).length w
          c)).map
        (fun rng => idsTotal ctx
          (((ctx.orbits.map ctx.orbitIdOf).drop rng.1).take
            (rng.2 - rng.1)))) =
        ((_iterate_chunk_indices
          (ctx.orbits.map ctx.orbitIdOf).length
          (effective_chunk_size (ctx.orbits.map ctx.orbitIdOf).length w
            c)).map
          (fun rng => (((ctx.orbits.map ctx.orbitIdOf).drop rng.1).take
            (rng.2 - rng.1)))).map (idsTotal ctx) := by
      rw [List.map_map]
      rfl
    rw [hcomp, _iterate_chunk_indices_map_slice hcc, ← idsTotal_flatten,
      _iterate_chunks_join hcc]

/-- C7 witness at the concrete five-orbit context with C = 2, W = 2:
both paths succeed with multiset-equal quadruples. -/
theorem claim_C7_witness :
    ∃ bd bs,
      (iterative_precovery_and_differential_correction true (fun _ => 0)
        ctxOk5 2 2).result = Except.ok bd ∧
      (iterative_precovery_and_differential_correction false (fun _ => 0)
        ctxOk5 2 2).result = Except.ok bs ∧
      bd.mSet = bs.mSet :=
  claim_C7 ctxOk5 (fun _ => 0) 2 2 (by decide) (by decide)
    (by
      intro id hid
      fin_cases hid <;> exact ⟨_, rfl⟩)

theorem RayStore.getRef_put_lt (s : RayStore v) (x : v) (r : Nat)
    (h : r < s.nextId) : (s.put x).2.getRef r = s.getRef r := by
  have hne : (s.nextId == r) = false := by
    simp only [beq_eq_false_iff_ne, ne_eq]
    omega
  simp [RayStore.put, RayStore.getRef, List.find?, hne]

theorem RayStore.getRef_lt_of_WF (s : RayStore v) (r : Nat) (x : v)
    (hwf : s.WF) (h : s.getRef r = some x) : r < s.nextId := by
  unfold RayStore.getRef at h
  rcases hf : s.entries.find? (fun e => e.1 == r) with _ | e
  · rw [hf] at h
    exact Option.noConfusion h
  · have hmem := List.mem_of_find?_eq_some hf
    have hp := List.find?_some hf
    simp only [beq_iff_eq] at hp
    have := hwf e hmem
    omega

theorem find_filter_not_banned (rs : List Nat) (r : Nat) (h : r ∉ rs) :
    ∀ l : List (Nat × v),
      (l.filter (fun e => ! rs.contains e.1)).find? (fun e => e.1 == r) =
        l.find? (fun e => e.1 == r) := by
  intro l
  induction l with
  | nil => rfl
  | cons e tl ih =>
    by_cases hc : e.1 ∈ rs
    · have he2 : (e.1 == r) = false := by
        simp only [beq_eq_false_iff_ne, ne_eq]
        intro h0
        rw [h0] at hc
        exact h hc
      have hfc : (e :: tl).filter (fun e => ! rs.contains e.1) =
          tl.filter (fun e => ! rs.contains e.1) := by
        simp [List.filter_cons, hc]
      rw [hfc, ih, List.find?_cons_of_neg _ (by simp [he2])]
    · have hfc : (e :: tl).filter (fun e => ! rs.contains e.1) =
          e :: tl.filter (fun e => ! rs.contains e.1) := by
        simp [List.filter_cons, hc]
      rw [hfc]
      by_cases he : e.1 = r
      · rw [List.find?_cons_of_pos _ (by simp [he]),
          List.find?_cons_of_pos _ (by simp [he])]
      · rw [List.find?_cons_of_neg _ (by simp [he]),
          List.find?_cons_of_neg _ (by simp [he]), ih]

theorem RayStore.getRef_free_not_mem (s : RayStore v) (rs : List Nat)
    (r : Nat) (h : r ∉ rs) : (s.free rs).getRef r = s.getRef r := by
  unfold RayStore.free RayStore.getRef
  dsimp only
  rw [find_filter_not_banned rs r h]

/-- The reference pass-through case of `placeOptional` is the identity
on the store: nothing is placed, nothing recorded. -/
theorem placeOptional_ref (s : RayStore (InputVal I O M B)) (tag : InputTag)
    (r : Nat) (val0 : Option (InputVal I O M B)) :
    placeOptional s tag (some r) val0 = (s, some r, [], []) := rfl

/-- Monotonicity and frame facts about one `placeOptional` step. -/
theorem placeOptional_spec (s : RayStore (InputVal I O M B)) (tag : InputTag)
    (ref0 : Option Nat) (val0 : Option (InputVal I O M B)) :
    s.nextId ≤ (placeOptional s tag ref0 val0).1.nextId ∧
    (∀ p ∈ (placeOptional s tag ref0 val0).2.2.1, s.nextId ≤ p) ∧
    (∀ r < s.nextId,
      (placeOptional s tag ref0 val0).1.getRef r = s.getRef r) ∧
    ((placeOptional s tag ref0 val0).2.2.2 = [] ∨
      (placeOptional s tag ref0 val0).2.2.2 = [tag]) := by
  rcases ref0 with _ | r
  · rcases val0 with _ | v
    · exact ⟨le_rfl, fun p hp => absurd hp (List.not_mem_nil p),
        fun r _ => rfl, Or.inl rfl⟩
    · refine ⟨?_, ?_, ?_, Or.inr rfl⟩
      · simp [placeOptional, RayStore.put]
      · intro p hp
        simp only [placeOptional] at hp
        rcases List.mem_singleton.mp hp with rfl
        simp [RayStore.put]
      · intro r hr
        exact RayStore.getRef_put_lt s v r hr
  · exact ⟨le_rfl, fun p hp => absurd hp (List.not_mem_nil p),
      fun r _ => rfl, Or.inl rfl⟩

theorem resolveOrbitsArg_ref_spec (s0 : RayStore (InputVal I O M B))
    (r : Nat) (res : Option Nat × O)
    (h : resolveOrbitsArg s0 (.ref r) = some res) :
    res.1 = some r ∧ s0.getRef r = some (.orbits res.2) := by
  unfold resolveOrbitsArg at h
  dsimp only at h
  rcases hv : s0.getRef r with _ | v
  · rw [hv] at h
    exact Option.noConfusion h
  · rw [hv] at h
    rcases v with x | x | x | x <;>
      simp only [InputVal.orbitsVal, Option.bind_eq_bind, Option.some_bind,
        Option.none_bind, Option.pure_def] at h
    · exact Option.noConfusion h
    · injection h with h2
      subst h2
      exact ⟨rfl, rfl⟩
    · exact Option.noConfusion h
    · exact Option.noConfusion h

theorem resolveMembersArg_ref_spec (s0 : RayStore (InputVal I O M B))
    (r : Nat) (res : Option Nat × Option M)
    (h : resolveMembersArg s0 (some (.ref r)) = some res) :
    res.1 = some r ∧ ∃ m, s0.getRef r = some (.members m) ∧
      res.2 = some m := by
  unfold resolveMembersArg at h
  dsimp only at h
  rcases hv : s0.getRef r with _ | v
  · rw [hv] at h
    exact Option.noConfusion h
  · rw [hv] at h
    rcases v with x | x | x | x <;>
      simp only [InputVal.membersVal, Option.bind_eq_bind, Option.some_bind,
        Option.none_bind, Option.pure_def] at h
    · exact Option.noConfusion h
    · exact Option.noConfusion h
    · injection h with h2
      subst h2
      exact ⟨rfl, x, rfl, rfl⟩
    · exact Option.noConfusion h

theorem resolveObsArg_ref_spec (s0 : RayStore (InputVal I O M B))
    (r : Nat) (res : Option Nat × Option B)
    (h : resolveObsArg s0 (some (.ref r)) = some res) :
    res.1 = some r ∧ ∃ bb, s0.getRef r = some (.obs bb) ∧
      res.2 = some bb := by
  unfold resolveObsArg at h
  dsimp only at h
  rcases hv : s0.getRef r with _ | v
  · rw [hv] at h
    exact Option.noConfusion h
  · rw [hv] at h
    rcases v with x | x | x | x <;>
      simp only [InputVal.obsVal, Option.bind_eq_bind, Option.some_bind,
        Option.none_bind, Option.pure_def] at h
    · exact Option.noConfusion h
    · exact Option.noConfusion h
    · exact Option.noConfusion h
    · injection h with h2
      subst h2
      exact ⟨rfl, x, rfl, rfl⟩

/-- A tag appears in the put trace of one `placeOptional` step only if
it is that step's own tag and no caller reference existed for it. -/
theorem placeOptional_tags_mem (s : RayStore (InputVal I O M B))
    (tag : InputTag) (ref0 : Option Nat) (val0 : Option (InputVal I O M B)) :
    ∀ t ∈ (placeOptional s tag ref0 val0).2.2.2, t = tag ∧ ref0 = none := by
  intro t ht
  rcases ref0 with _ | r
  · rcases val0 with _ | v
    · exact absurd ht (List.not_mem_nil t)
    · exact ⟨List.mem_singleton.mp ht, rfl⟩
  · exact absurd ht (List.not_mem_nil t)

/-- Provenance of every element of the placement trace: the run places
`orbit_ids` always, and one of the three shared inputs only when the
caller supplied no reference for it. -/
theorem placePhase_puts_mem (s0 : RayStore (InputVal I O M B))
    (orbitsRes : Option Nat × O) (membersRes : Option Nat × Option M)
    (obsRes : Option Nat × Option B) (deriveIds : O → I) :
    ∀ t ∈ (placePhase s0 orbitsRes membersRes obsRes deriveIds).puts,
      t = InputTag.ids ∨ (t = InputTag.orbits ∧ orbitsRes.1 = none) ∨
      (t = InputTag.members ∧ membersRes.1 = none) ∨
      (t = InputTag.obs ∧ obsRes.1 = none) := by
  intro t ht
  dsimp only [placePhase] at ht
  rcases List.mem_append.mp ht with ht | ht
  · rcases List.mem_append.mp ht with ht | ht
    · rcases List.mem_append.mp ht with ht | ht
      · exact Or.inl (List.mem_singleton.mp ht)
      · exact Or.inr (Or.inl (placeOptional_tags_mem _ _ _ _ t ht))
    · exact Or.inr (Or.inr (Or.inl (placeOptional_tags_mem _ _ _ _ t ht)))
  · exact Or.inr (Or.inr (Or.inr (placeOptional_tags_mem _ _ _ _ t ht)))

/-- C8: placement into the shared object store happens at most once
per input per run, and for each of the three shared inputs (orbits,
orbit members, observations) a caller-supplied reference is passed
through unchanged — it is the reference every chunk task receives — no
new placement is made for that input, and its value is the one read
back locally from the store. -/
theorem claim_C8 (s0 : RayStore (InputVal I O M B))
    (orbitsArg : MaybeRef O) (membersArg : Option (MaybeRef M))
    (obsArg : Option (MaybeRef B)) (deriveIds : O → I)
    (out : SetupOut I O M B)
    (hsetup : sharedInputSetup s0 orbitsArg membersArg obsArg deriveIds =
      some out) :
    (∀ t : InputTag, out.puts.count t ≤ 1) ∧
    (∀ r, orbitsArg = .ref r →
      out.orbits_ref = some r ∧ InputTag.orbits ∉ out.puts ∧
      ∃ o, s0.getRef r = some (.orbits o) ∧ out.localOrbits = o) ∧
    (∀ r, membersArg = some (.ref r) →
      out.orbit_members_ref = some r ∧ InputTag.members ∉ out.puts ∧
      ∃ m, s0.getRef r = some (.members m) ∧ out.localMembers = some m) ∧
    (∀ r, obsArg = some (.ref r) →
      out.observations_ref = some r ∧ InputTag.obs ∉ out.puts ∧
      ∃ bb, s0.getRef r = some (.obs bb) ∧ out.localObs = some bb) := by
  unfold sharedInputSetup at hsetup
  simp only [Option.bind_eq_bind, Option.bind_eq_some, Option.pure_def,
    Option.some.injEq] at hsetup
  obtain ⟨orbitsRes, hor, membersRes, hmr, obsRes, hob, hout⟩ := hsetup
  subst hout
  refine ⟨?_, ?_, ?_, ?_⟩
  · intro t
    obtain ⟨-, -, -, ht1⟩ := placeOptional_spec
      (s0.put (.ids (deriveIds orbitsRes.2))).2 .orbits orbitsRes.1
      (some (.orbits orbitsRes.2))
    obtain ⟨-, -, -, ht2⟩ := placeOptional_spec
      (placeOptional (s0.put (.ids (deriveIds orbitsRes.2))).2 .orbits
        orbitsRes.1 (some (.orbits orbitsRes.2))).1 .members membersRes.1
      (membersRes.2.map (fun m => .members m))
    obtain ⟨-, -, -, ht3⟩ := placeOptional_spec
      (placeOptional (placeOptional (s0.put (.ids (deriveIds orbitsRes.2))).2
        .orbits orbitsRes.1 (some (.orbits orbitsRes.2))).1 .members
        membersRes.1 (membersRes.2.map (fun m => .members m))).1 .obs obsRes.1
      (obsRes.2.map (fun b => .obs b))
    dsimp only [placePhase]
    rcases ht1 with h1 | h1 <;> rcases ht2 with h2 | h2 <;>
      rcases ht3 with h3 | h3 <;> rw [h1, h2, h3] <;> cases t <;> decide
  · intro r hr
    subst hr
    obtain ⟨hres1, hval⟩ := resolveOrbitsArg_ref_spec s0 r orbitsRes hor
    refine ⟨?_, ?_, orbitsRes.2, hval, rfl⟩
    · dsimp only [placePhase]
      rw [hres1, placeOptional_ref]
    · intro hmem
      rcases placePhase_puts_mem s0 orbitsRes membersRes obsRes deriveIds
        _ hmem with h | ⟨h, h2⟩ | ⟨h, h2⟩ | ⟨h, h2⟩
      · exact absurd h (by decide)
      · rw [hres1] at h2
        exact Option.noConfusion h2
      · exact absurd h (by decide)
      · exact absurd h (by decide)
  · intro r hr
    subst hr
    obtain ⟨hres1, m, hval, hres2⟩ := resolveMembersArg_ref_spec s0 r
      membersRes hmr
    refine ⟨?_, ?_, m, hval, by dsimp only [placePhase]; rw [hres2]⟩
    · dsimp only [placePhase]
      rw [hres1, placeOptional_ref]
    · intro hmem
      rcases placePhase_puts_mem s0 orbitsRes membersRes obsRes deriveIds
        _ hmem with h | ⟨h, h2⟩ | ⟨h, h2⟩ | ⟨h, h2⟩
      · exact absurd h (by decide)
      · exact absurd h (by decide)
      · rw [hres1] at h2
        exact Option.noConfusion h2
      · exact absurd h (by decide)
  · intro r hr
    subst hr
    obtain ⟨hres1, bb, hval, hres2⟩ := resolveObsArg_ref_spec s0 r obsRes hob
    refine ⟨?_, ?_, bb, hval, by dsimp only [placePhase]; rw [hres2]⟩
    · dsimp only [placePhase]
      rw [hres1, placeOptional_ref]
    · intro hmem
      rcases placePhase_puts_mem s0 orbitsRes membersRes obsRes deriveIds
        _ hmem with h | ⟨h, h2⟩ | ⟨h, h2⟩ | ⟨h, h2⟩
      · exact absurd h (by decide)
      · exact absurd h (by decide)
      · exact absurd h (by decide)
      · rw [hres1] at h2
        exact Option.noConfusion h2

/-- C10: the end-of-dispatch free operates only on references this run
itself placed (all of them are fresh, allocated at or above the entry
counter), so caller-supplied references to orbits, orbit members, or
observations are never freed: they are not in `refs_to_free`, and after
the free they still dereference in the store to the same value as at
entry. -/
theorem claim_C10 (s0 : RayStore (InputVal I O M B)) (hwf : s0.WF)
    (orbitsArg : MaybeRef O) (membersArg : Option (MaybeRef M))
    (obsArg : Option (MaybeRef B)) (deriveIds : O → I)
    (out : SetupOut I O M B)
    (hsetup : sharedInputSetup s0 orbitsArg membersArg obsArg deriveIds =
      some out) :
    (∀ r2 ∈ out.refs_to_free, s0.nextId ≤ r2) ∧
    (∀ r, (orbitsArg = .ref r ∨ membersArg = some (.ref r) ∨
        obsArg = some (.ref r)) →
      r ∉ out.refs_to_free ∧
      (out.store.free out.refs_to_free).getRef r = s0.getRef r) := by
  unfold sharedInputSetup at hsetup
  simp only [Option.bind_eq_bind, Option.bind_eq_some, Option.pure_def,
    Option.some.injEq] at hsetup
  obtain ⟨orbitsRes, hor, membersRes, hmr, obsRes, hob, hout⟩ := hsetup
  subst hout
  dsimp only [placePhase]
  set s1 : RayStore (InputVal I O M B) :=
    (s0.put (InputVal.ids (deriveIds orbitsRes.2))).2 with hs1def
  set P1 := placeOptional s1 InputTag.orbits orbitsRes.1
    (some (InputVal.orbits orbitsRes.2)) with hP1def
  set P2 := placeOptional P1.1 InputTag.members membersRes.1
    (membersRes.2.map (fun m => InputVal.members m)) with hP2def
  set P3 := placeOptional P2.1 InputTag.obs obsRes.1
    (obsRes.2.map (fun b => InputVal.obs b)) with hP3def
  obtain ⟨hm1, hp1, hf1, -⟩ := placeOptional_spec s1 InputTag.orbits
    orbitsRes.1 (some (InputVal.orbits orbitsRes.2))
  obtain ⟨hm2, hp2, hf2, -⟩ := placeOptional_spec P1.1 InputTag.members
    membersRes.1 (membersRes.2.map (fun m => InputVal.members m))
  obtain ⟨hm3, hp3, hf3, -⟩ := placeOptional_spec P2.1 InputTag.obs
    obsRes.1 (obsRes.2.map (fun b => InputVal.obs b))
  rw [← hP1def] at hm1 hp1 hf1
  rw [← hP2def] at hm2 hp2 hf2
  rw [← hP3def] at hm3 hp3 hf3
  have hs1n : s1.nextId = s0.nextId + 1 := rfl
  have hids1 : (s0.put (InputVal.ids (deriveIds orbitsRes.2))).1 =
      s0.nextId := rfl
  have hfree : ∀ r2 ∈ [(s0.put (InputVal.ids (deriveIds orbitsRes.2))).1] ++
      P1.2.2.1 ++ P2.2.2.1 ++ P3.2.2.1, s0.nextId ≤ r2 := by
    intro r2 hr2
    rcases List.mem_append.mp hr2 with hr2 | hr2
    · rcases List.mem_append.mp hr2 with hr2 | hr2
      · rcases List.mem_append.mp hr2 with hr2 | hr2
        · rw [List.mem_singleton.mp hr2, hids1]
        · have := hp1 r2 hr2
          omega
      · have := hp2 r2 hr2
        omega
    · have := hp3 r2 hr2
      omega
  refine ⟨hfree, ?_⟩
  intro r hcaller
  have hval : ∃ v, s0.getRef r = some v := by
    rcases hcaller with h | h | h
    · subst h
      obtain ⟨-, hv⟩ := resolveOrbitsArg_ref_spec s0 r orbitsRes hor
      exact ⟨_, hv⟩
    · subst h
      obtain ⟨-, m, hv, -⟩ := resolveMembersArg_ref_spec s0 r membersRes hmr
      exact ⟨_, hv⟩
    · subst h
      obtain ⟨-, bb, hv, -⟩ := resolveObsArg_ref_spec s0 r obsRes hob
      exact ⟨_, hv⟩
  obtain ⟨v, hv⟩ := hval
  have hrlt : r < s0.nextId := RayStore.getRef_lt_of_WF s0 r v hwf hv
  have hnot : r ∉ [(s0.put (InputVal.ids (deriveIds orbitsRes.2))).1] ++
      P1.2.2.1 ++ P2.2.2.1 ++ P3.2.2.1 := by
    intro hmem
    have := hfree r hmem
    omega
  refine ⟨hnot, ?_⟩
  rw [RayStore.getRef_free_not_mem _ _ _ hnot]
  rw [hf3 r (by omega), hf2 r (by omega), hf1 r (by omega)]
  exact RayStore.getRef_put_lt s0 _ r hrlt

/-- The concrete one-entry store and arguments used to witness the
broadcaster claims: orbits supplied as caller reference 0, orbit
members as a local value, observations absent. -/
def storeW : RayStore (InputVal (List Nat) (List Nat) (List Nat) (List Nat)) :=
  ⟨1, [(0, InputVal.orbits [7])]⟩

/-- C8 witness: with orbits supplied as reference 0 of a one-entry
store, orbit members as a local value and no observations, the
broadcaster passes reference 0 through, never re-places the orbits, and
makes at most one put per input. -/
theorem claim_C8_witness :
    ∃ out, sharedInputSetup storeW
        (MaybeRef.ref 0) (some (MaybeRef.value [5])) none (fun o => o) =
        some out ∧
      (∀ t : InputTag, out.puts.count t ≤ 1) ∧
      out.orbits_ref = some 0 ∧ InputTag.orbits ∉ out.puts := by
  refine ⟨_, rfl, ?_, ?_, ?_⟩
  · exact (claim_C8 storeW (MaybeRef.ref 0) (some (MaybeRef.value [5])) none
      (fun o => o) _ rfl).1
  · exact ((claim_C8 storeW (MaybeRef.ref 0) (some (MaybeRef.value [5])) none
      (fun o => o) _ rfl).2.1 0 rfl).1
  · exact ((claim_C8 storeW (MaybeRef.ref 0) (some (MaybeRef.value [5])) none
      (fun o => o) _ rfl).2.1 0 rfl).2.1

/-- C10 witness: in the same scenario the caller-supplied reference 0
is not freed and still dereferences to its original value after the
end-of-dispatch free; everything freed was allocated by this run. -/
theorem claim_C10_witness :
    ∃ out, sharedInputSetup storeW
        (MaybeRef.ref 0) (some (MaybeRef.value [5])) none (fun o => o) =
        some out ∧
      (∀ r2 ∈ out.refs_to_free, storeW.nextId ≤ r2) ∧
      0 ∉ out.refs_to_free ∧
      (out.store.free out.refs_to_free).getRef 0 = storeW.getRef 0 := by
  have hwf : storeW.WF := by
    intro p hp
    rw [List.mem_singleton.mp hp]
    decide
  refine ⟨_, rfl, ?_, ?_, ?_⟩
  · exact (claim_C10 storeW hwf (MaybeRef.ref 0) (some (MaybeRef.value [5]))
      none (fun o => o) _ rfl).1
  · exact ((claim_C10 storeW hwf (MaybeRef.ref 0) (some (MaybeRef.value [5]))
      none (fun o => o) _ rfl).2 0 (Or.inl rfl)).1
  · exact ((claim_C10 storeW hwf (MaybeRef.ref 0) (some (MaybeRef.value [5]))
      none (fun o => o) _ rfl).2 0 (Or.inl rfl)).2

end IpodSpec
